import Mathlib

/-!
Verification of the streaming tool-call parser of
`src/crates/g3-core/src/streaming_parser.rs` (crate `g3-core`).

The Rust strings are modelled as lists of Unicode scalar values
(`List Char`); all positions are scalar indices.  Every source input in the
claims is ASCII, where scalar indices and Rust's byte indices coincide.  A
separate byte-accurate model is given for `get_content_before_position`,
whose range-slice is the one place where the byte/scalar distinction is
observable (a Rust range slice panics on a non-boundary byte index).
-/

/-- Unicode scalar list of a string literal. -/
def strL (s : String) : List Char := s.toList

/-- Left brace character, written via its code point. -/
def lbrace : Char := Char.ofNat 123

/-- Right brace character, written via its code point. -/
def rbrace : Char := Char.ofNat 125

/-- Whether `pat` is a prefix of `t` (model of Rust `str::starts_with` on the
match candidate during substring search). -/
def startsWithList : List Char → List Char → Bool
  | [], _ => true
  | _ :: _, [] => false
  | p :: ps, c :: cs => if p = c then startsWithList ps cs else false

/-- Scan `t` left to right and return the absolute index (offset by `i`) of
the first position where `pat` is a prefix.  Model of Rust `str::find`. -/
def findSubFrom (pat : List Char) : List Char → Nat → Option Nat
  | [], i => if startsWithList pat [] then some i else none
  | c :: ts, i =>
      if startsWithList pat (c :: ts) then some i else findSubFrom pat ts (i + 1)

/-- First occurrence of `pat` in `text` (Rust `str::find`). -/
def findSub (text pat : List Char) : Option Nat := findSubFrom pat text 0

/-- Whether `pat` occurs in `text` (Rust `str::contains`). -/
def containsSub (text pat : List Char) : Bool := (findSub text pat).isSome

/-- Scan `t` and return the absolute index of the last position where `pat`
is a prefix.  Model of Rust `str::rfind`. -/
def rfindSubFrom (pat : List Char) : List Char → Nat → Option Nat
  | [], i => if startsWithList pat [] then some i else none
  | c :: ts, i =>
      match rfindSubFrom pat ts (i + 1) with
      | some j => some j
      | none => if startsWithList pat (c :: ts) then some i else none

/-- Last occurrence of `pat` in `text` (Rust `str::rfind`). -/
def rfindSub (text pat : List Char) : Option Nat := rfindSubFrom pat text 0

/-- Rust `char::is_whitespace`: the Unicode `White_Space` property. -/
def rustIsWhitespace (c : Char) : Bool :=
  (9 ≤ c.toNat ∧ c.toNat ≤ 13) ∨ c.toNat = 32 ∨ c.toNat = 0x85 ∨ c.toNat = 0xA0 ∨
    c.toNat = 0x1680 ∨ (0x2000 ≤ c.toNat ∧ c.toNat ≤ 0x200A) ∨ c.toNat = 0x2028 ∨
    c.toNat = 0x2029 ∨ c.toNat = 0x202F ∨ c.toNat = 0x205F ∨ c.toNat = 0x3000

/-- Rust `str::trim_start`. -/
def rustTrimStart (s : List Char) : List Char := s.dropWhile rustIsWhitespace

/-- Rust `str::trim_end`. -/
def rustTrimEnd (s : List Char) : List Char :=
  ((s.reverse).dropWhile rustIsWhitespace).reverse

/-- Rust `str::trim`. -/
def rustTrim (s : List Char) : List Char := rustTrimEnd (rustTrimStart s)

/-- Fuelled worker for `replaceAll`; the fuel only bounds the recursion and
`replaceAll` always supplies enough of it (one unit per scalar consumed). -/
def replaceAllF (pat rep : List Char) : Nat → List Char → List Char
  | 0, t => t
  | _ + 1, [] => []
  | fuel + 1, c :: ts =>
      if pat.isEmpty then c :: ts
      else if startsWithList pat (c :: ts) then
        rep ++ replaceAllF pat rep fuel ((c :: ts).drop pat.length)
      else c :: replaceAllF pat rep fuel ts

/-- Rust `str::replace`: replace all non-overlapping occurrences of `pat`
by `rep`, scanning left to right. -/
def replaceAll (pat rep t : List Char) : List Char :=
  replaceAllF pat rep (t.length + 1) t

/-- Least `i < n` with `p i = true` (used to state boundary-finder specs). -/
def firstHit (p : Nat → Bool) : Nat → Option Nat
  | 0 => none
  | n + 1 =>
      match firstHit p n with
      | some i => some i
      | none => if p n then some n else none

/-- Greatest `i < n` with `p i = true`. -/
def lastHit (p : Nat → Bool) : Nat → Option Nat
  | 0 => none
  | n + 1 => if p n then some n else lastHit p n

/-- Dynamically typed JSON value, the model of `serde_json::Value`.  A number
is kept as a mantissa and a decimal exponent; object fields keep their first
occurrence position, with a later duplicate key replacing the value
(`serde_json::Map::insert` semantics). -/
inductive Json where
  | null : Json
  | bool (b : Bool) : Json
  | num (mantissa : Int) (exponent : Int) : Json
  | str (s : List Char) : Json
  | arr (items : List Json) : Json
  | obj (fields : List (List Char × Json)) : Json

/-- Whether a JSON value is an object (`serde_json::Value::as_object` is
`Some`). -/
def jsonIsObj : Json → Bool
  | Json.obj _ => true
  | _ => false

/-- Fields of a JSON object, `[]` for every other value. -/
def jsonObjFields : Json → List (List Char × Json)
  | Json.obj fs => fs
  | _ => []

/-- Insert into an object field list: a duplicate key keeps its position and
takes the new value, as a map insert does. -/
def objInsert : List (List Char × Json) → List Char → Json → List (List Char × Json)
  | [], k, v => [(k, v)]
  | (k0, v0) :: rest, k, v =>
      if k0 = k then (k0, v) :: rest else (k0, v0) :: objInsert rest k v

/-- Field lookup in a JSON object field list. -/
def jsonLookup : List (List Char × Json) → List Char → Option Json
  | [], _ => none
  | (k0, v0) :: rest, k => if k0 = k then some v0 else jsonLookup rest k

/-- JSON insignificant whitespace accepted between tokens by serde_json. -/
def isJsonWs (c : Char) : Bool := c = ' ' ∨ c = '\t' ∨ c = '\n' ∨ c = Char.ofNat 13

/-- Skip insignificant JSON whitespace. -/
def skipWsJ (s : List Char) : List Char := s.dropWhile isJsonWs

/-- Value of a hexadecimal digit. -/
def hexDigitVal (c : Char) : Option Nat :=
  if '0' ≤ c ∧ c ≤ '9' then some (c.toNat - 48)
  else if 'a' ≤ c ∧ c ≤ 'f' then some (c.toNat - 87)
  else if 'A' ≤ c ∧ c ≤ 'F' then some (c.toNat - 70)
  else none

/-- Parse the body of a JSON string after the opening quote, returning the
decoded scalars and the remaining input after the closing quote.  Escapes
follow the JSON grammar; unescaped control characters and lone surrogates
are rejected, as serde_json rejects them. -/
def parseStringBody : Nat → List Char → Option (List Char × List Char)
  | 0, _ => none
  | _ + 1, [] => none
  | fuel + 1, c :: t =>
      if c = Char.ofNat 34 then some ([], t)
      else if c = '\\' then
        match t with
        | [] => none
        | e :: t2 =>
            let dec : Option (Char × List Char) :=
              if e = Char.ofNat 34 then some (Char.ofNat 34, t2)
              else if e = '\\' then some ('\\', t2)
              else if e = '/' then some ('/', t2)
              else if e = 'b' then some (Char.ofNat 8, t2)
              else if e = 'f' then some (Char.ofNat 12, t2)
              else if e = 'n' then some ('\n', t2)
              else if e = 'r' then some (Char.ofNat 13, t2)
              else if e = 't' then some ('\t', t2)
              else if e = 'u' then
                match t2 with
                | h1 :: h2 :: h3 :: h4 :: t3 =>
                    match hexDigitVal h1, hexDigitVal h2, hexDigitVal h3, hexDigitVal h4 with
                    | some d1, some d2, some d3, some d4 =>
                        let n := ((d1 * 16 + d2) * 16 + d3) * 16 + d4
                        if 0xD800 ≤ n ∧ n < 0xE000 then none
                        else some (Char.ofNat n, t3)
                    | _, _, _, _ => none
                | _ => none
              else none
            match dec with
            | some (ch, rest2) =>
                match parseStringBody fuel rest2 with
                | some (cs, r) => some (ch :: cs, r)
                | none => none
            | none => none
      else if c.toNat < 32 then none
      else
        match parseStringBody fuel t with
        | some (cs, r) => some (c :: cs, r)
        | none => none

/-- Digits of a decimal literal folded into a natural number. -/
def digitsToNat (ds : List Char) : Nat :=
  ds.foldl (fun a c => a * 10 + (c.toNat - 48)) 0

/-- Parse a JSON number token following the JSON grammar (optional minus,
integer part with no redundant leading zero, optional fraction, optional
exponent), as a mantissa and decimal exponent. -/
def parseNumberTok (s : List Char) : Option (Json × List Char) :=
  let negAndRest : Bool × List Char :=
    match s with
    | c :: t => if c = '-' then (true, t) else (false, s)
    | [] => (false, s)
  let neg := negAndRest.1
  let s1 := negAndRest.2
  let ds := s1.takeWhile Char.isDigit
  let rest1 := s1.drop ds.length
  if ds.isEmpty then none
  else if 1 < ds.length ∧ ds.headI = '0' then none
  else
    let intPart : Nat := digitsToNat ds
    let fracStep : Option (Nat × Int × List Char) :=
      match rest1 with
      | '.' :: t =>
          let fs := t.takeWhile Char.isDigit
          if fs.isEmpty then none
          else some (intPart * 10 ^ fs.length + digitsToNat fs, -(fs.length : Int), t.drop fs.length)
      | _ => some (intPart, 0, rest1)
    match fracStep with
    | none => none
    | some (m, e, rest2) =>
        let expStep : Option (Int × List Char) :=
          match rest2 with
          | c :: t =>
              if c = 'e' ∨ c = 'E' then
                let signAndRest : Bool × List Char :=
                  match t with
                  | c2 :: t2 =>
                      if c2 = '-' then (true, t2)
                      else if c2 = '+' then (false, t2) else (false, t)
                  | [] => (false, t)
                let es := signAndRest.2.takeWhile Char.isDigit
                if es.isEmpty then none
                else
                  let ev : Int := (digitsToNat es : Int)
                  some (if signAndRest.1 then -ev else ev, signAndRest.2.drop es.length)
              else some (0, rest2)
          | [] => some (0, rest2)
        match expStep with
        | none => none
        | some (ex, rest3) =>
            let mz : Int := if neg then -(m : Int) else (m : Int)
            some (Json.num mz (e + ex), rest3)

mutual

/-- Parse one JSON value, fuelled recursive descent (model of the serde_json
parser).  The fuel only bounds nesting and `parseJsonStr` always supplies
enough of it. -/
def parseValue : Nat → List Char → Option (Json × List Char)
  | 0, _ => none
  | fuel + 1, s0 =>
      let s := skipWsJ s0
      match s with
      | [] => none
      | c :: t =>
          if c = Char.ofNat 34 then
            match parseStringBody (t.length + 1) t with
            | some (cs, r) => some (Json.str cs, r)
            | none => none
          else if c = lbrace then
            let t1 := skipWsJ t
            match t1 with
            | c2 :: t2 => if c2 = rbrace then some (Json.obj [], t2) else parseObjItems fuel [] t1
            | [] => none
          else if c = '[' then
            let t1 := skipWsJ t
            match t1 with
            | c2 :: t2 => if c2 = ']' then some (Json.arr [], t2) else parseArrItems fuel [] t1
            | [] => none
          else if startsWithList (strL "null") s then some (Json.null, s.drop 4)
          else if startsWithList (strL "true") s then some (Json.bool true, s.drop 4)
          else if startsWithList (strL "false") s then some (Json.bool false, s.drop 5)
          else parseNumberTok s

/-- Parse the members of a JSON object after at least one member is known to
follow. -/
def parseObjItems : Nat → List (List Char × Json) → List Char → Option (Json × List Char)
  | 0, _, _ => none
  | fuel + 1, acc, s =>
      let s1 := skipWsJ s
      match s1 with
      | c :: t =>
          if c = Char.ofNat 34 then
            match parseStringBody (t.length + 1) t with
            | some (key, r1) =>
                match skipWsJ r1 with
                | c2 :: t2 =>
                    if c2 = ':' then
                      match parseValue fuel t2 with
                      | some (v, r3) =>
                          let acc2 := objInsert acc key v
                          match skipWsJ r3 with
                          | c3 :: t3 =>
                              if c3 = ',' then parseObjItems fuel acc2 t3
                              else if c3 = rbrace then some (Json.obj acc2, t3)
                              else none
                          | [] => none
                      | none => none
                    else none
                | [] => none
            | none => none
          else none
      | [] => none

/-- Parse the items of a JSON array after at least one item is known to
follow. -/
def parseArrItems : Nat → List Json → List Char → Option (Json × List Char)
  | 0, _, _ => none
  | fuel + 1, acc, s =>
      match parseValue fuel s with
      | some (v, r1) =>
          match skipWsJ r1 with
          | c :: t =>
              if c = ',' then parseArrItems fuel (acc ++ [v]) t
              else if c = ']' then some (Json.arr (acc ++ [v]), t)
              else none
          | [] => none
      | none => none

end

/-- Model of `serde_json::from_str::<serde_json::Value>`: parse one value and
require only whitespace to remain. -/
def parseJsonStr (s : List Char) : Option Json :=
  match parseValue (2 * s.length + 2) s with
  | some (v, rest) => if (skipWsJ rest).isEmpty then some v else none
  | none => none

/-- Modelled from the spec: a tool invocation, `tool` a string identifier and
`args` a JSON value (spec section 3; the struct lives in the g3-core crate
root, which is not among the staged sources, and its serde shape is pinned
by the staged test `src/test_tool_parsing.rs`). -/
structure ToolCall where
  tool : List Char
  args : Json

/-- Model of `serde_json::from_str::<ToolCall>`: a JSON object with a string
field `tool` and a field `args` holding any JSON value; other fields are
ignored, a missing or ill-typed field is an error. -/
def serdeToolCallFromStr (s : List Char) : Option ToolCall :=
  match parseJsonStr s with
  | some (Json.obj fs) =>
      match jsonLookup fs (strL "tool"), jsonLookup fs (strL "args") with
      | some (Json.str t), some a => some { tool := t, args := a }
      | _, _ => none
  | _ => none

/-- Modelled from the spec: one increment of streamed model output — a text
fragment, optional pre-decoded native tool calls, and the end-of-message
flag (spec section 6; `CompletionChunk` lives in the g3-providers crate,
whose sources are not staged). -/
structure CompletionChunk where
  content : List Char
  tool_calls : Option (List ToolCall)
  finished : Bool

/-- Parser state of `StreamingToolParser` (streaming_parser.rs, lines
27-40). -/
structure StreamingToolParser where
  text_buffer : List Char
  last_consumed_position : Nat
  message_stopped : Bool
  in_json_tool_call : Bool
  json_tool_start : Option Nat

/-- `StreamingToolParser::new`. -/
def StreamingToolParser.new : StreamingToolParser :=
  { text_buffer := []
    last_consumed_position := 0
    message_stopped := false
    in_json_tool_call := false
    json_tool_start := none }

/-- `TOOL_CALL_PATTERNS`: the four whitespace variants of a leading JSON
`tool` key. -/
def toolCallPatterns : List (List Char) :=
  [strL "\x7b\"tool\":", strL "\x7b \"tool\":", strL "\x7b\"tool\" :", strL "\x7b \"tool\" :"]

/-- `XML_TOOL_CALL_PATTERNS`. -/
def xmlToolCallPatterns : List (List Char) :=
  [strL "<invoke name=", strL "<invoke>", strL "<tool name="]

/-- One step of the fold in `find_last_tool_call_start`: keep the larger
candidate start. -/
def betterLast (best cand : Option Nat) : Option Nat :=
  match cand with
  | some pos =>
      match best with
      | none => some pos
      | some b => if pos > b then some pos else best
  | none => best

/-- `StreamingToolParser::find_last_tool_call_start`. -/
def find_last_tool_call_start (text : List Char) : Option Nat :=
  toolCallPatterns.foldl (fun best pat => betterLast best (rfindSub text pat)) none

/-- One step of the fold in `find_first_tool_call_start`: keep the smaller
candidate start. -/
def betterFirst (best cand : Option Nat) : Option Nat :=
  match cand with
  | some pos =>
      match best with
      | none => some pos
      | some b => if pos < b then some pos else best
  | none => best

/-- `StreamingToolParser::find_first_tool_call_start`. -/
def find_first_tool_call_start (text : List Char) : Option Nat :=
  toolCallPatterns.foldl (fun best pat => betterFirst best (findSub text pat)) none

/-- `PROSE_MARKERS` of `args_contain_prose_fragments`. -/
def proseMarkers : List (List Char) :=
  [strL "I\x27ll", strL "Let me", strL "Here\x27s", strL "I can", strL "I need",
   strL "First", strL "Now", strL "The "]

/-- Byte length of the UTF-8 encoding of a scalar list (Rust `str::len`). -/
def utf8Len (s : List Char) : Nat := (s.map Char.utf8Size).sum

/-- `StreamingToolParser::args_contain_prose_fragments`: a key longer than
100 bytes, containing a newline, or containing a prose marker. -/
def args_contain_prose_fragments (args : List (List Char × Json)) : Bool :=
  args.any fun kv =>
    100 < utf8Len kv.1 ∨ containsSub kv.1 (strL "\n") ∨
      proseMarkers.any fun marker => containsSub kv.1 marker

/-- Loop of `find_complete_json_object_end`, carrying the running index, the
brace depth, the in-string flag, the one-shot escape flag and whether an
opening brace was seen. -/
def fcjoeLoop : List Char → Nat → Int → Bool → Bool → Bool → Option Nat
  | [], _, _, _, _, _ => none
  | c :: rest, i, braceCount, inString, escapeNext, foundStart =>
      if escapeNext then fcjoeLoop rest (i + 1) braceCount inString false foundStart
      else if c = '\\' then fcjoeLoop rest (i + 1) braceCount inString true foundStart
      else if c = Char.ofNat 34 then
        fcjoeLoop rest (i + 1) braceCount (!inString) false foundStart
      else if c = lbrace ∧ inString = false then
        fcjoeLoop rest (i + 1) (braceCount + 1) inString false true
      else if c = rbrace ∧ inString = false then
        if braceCount - 1 = 0 ∧ foundStart = true then some i
        else fcjoeLoop rest (i + 1) (braceCount - 1) inString false foundStart
      else fcjoeLoop rest (i + 1) braceCount inString false foundStart

/-- `StreamingToolParser::find_complete_json_object_end`. -/
def find_complete_json_object_end (text : List Char) : Option Nat :=
  fcjoeLoop text 0 0 false false false

/-- `StreamingToolParser::find_complete_xml_element_end`. -/
def find_complete_xml_element_end (text : List Char) : Option Nat :=
  match findSub text (strL "<") with
  | none => none
  | some startPos =>
      match findSub (text.drop (startPos + 1)) (strL ">") with
      | none => none
      | some tagEnd =>
          let tagContent := (text.drop (startPos + 1)).take tagEnd
          let tagName := tagContent.takeWhile fun c => !rustIsWhitespace c && !(c = '>' : Bool)
          if startsWithList (strL "/") tagName then none
          else
            let closingTag := strL "</" ++ tagName ++ strL ">"
            match findSub text closingTag with
            | none => none
            | some closePos => some (closePos + closingTag.length)

/-- Extraction of the `name="..."` attribute value inside
`parse_xml_tool_call` (the identical code of its two branches). -/
def extractXmlNameAttr (xml : List Char) : Option (List Char) :=
  match findSub xml (strL "name=\"") with
  | none => none
  | some s =>
      match findSub (xml.drop (s + 6)) (strL "\"") with
      | none => none
      | some e => some ((xml.drop (s + 6)).take e)

/-- Cleaning of a parameter content in `parse_xml_tool_call`: trim, then
replace each newline by a space, then each double space by one space. -/
def cleanXmlContent (content : List Char) : List Char :=
  replaceAll (strL "\n") (strL " ") (rustTrim content) |> replaceAll (strL "  ") (strL " ")

/-- JSON-or-literal-command logic of `parse_xml_tool_call`: parse the cleaned
content as JSON, else wrap it as a one-field `command` object. -/
def xmlContentToJson (content : List Char) : Json :=
  let cleaned := cleanXmlContent content
  match parseJsonStr cleaned with
  | some j => j
  | none => Json.obj [(strL "command", Json.str (rustTrim cleaned))]

/-- Argument extraction of `parse_xml_tool_call`: prefer the content of a
`parameter` element named `args`, else everything between the first closing
angle bracket and the next `</`, else the empty object. -/
def xmlArgsOf (xml : List Char) : Json :=
  let openTag := strL "<parameter name=\"args\">"
  match findSub xml openTag with
  | some ap =>
      match findSub (xml.drop (ap + openTag.length)) (strL "</parameter>") with
      | some ce => xmlContentToJson ((xml.drop (ap + openTag.length)).take ce)
      | none => Json.obj []
  | none =>
      match findSub xml (strL ">") with
      | some sc =>
          match findSub (xml.drop (sc + 1)) (strL "</") with
          | some ce => xmlContentToJson ((xml.drop (sc + 1)).take ce)
          | none => Json.obj []
      | none => Json.obj []

/-- `StreamingToolParser::parse_xml_tool_call`. -/
def parse_xml_tool_call (xml : List Char) : Option ToolCall :=
  let nameOpt :=
    if containsSub xml (strL "<invoke name=") then extractXmlNameAttr xml
    else if containsSub xml (strL "<tool name=") then extractXmlNameAttr xml
    else none
  match nameOpt with
  | none => none
  | some toolName =>
      let args := xmlArgsOf xml
      if toolName.isEmpty then none else some { tool := toolName, args := args }

/-- Inner while loop of `try_parse_xml_tool_calls_from_text` for one opening
pattern: the scan start advances past each match.  Fuel bounds the loop and
the caller supplies one unit per possible start position. -/
def scanXmlOnePattern : Nat → List Char → List Char → Nat → List ToolCall
  | 0, _, _, _ => []
  | fuel + 1, text, pat, start =>
      match findSub (text.drop start) pat with
      | none => []
      | some pos =>
          let actualPos := start + pos
          let found :=
            match find_complete_xml_element_end (text.drop actualPos) with
            | some xmlEnd =>
                match parse_xml_tool_call ((text.drop actualPos).take xmlEnd) with
                | some tc => [tc]
                | none => []
            | none => []
          found ++ scanXmlOnePattern fuel text pat (actualPos + 1)

/-- `StreamingToolParser::try_parse_xml_tool_calls_from_text`. -/
def try_parse_xml_tool_calls_from_text (text : List Char) : List ToolCall :=
  xmlToolCallPatterns.foldl (fun acc pat => acc ++ scanXmlOnePattern (text.length + 1) text pat 0) []

/-- Validation applied to one complete JSON candidate span, shared verbatim
by `try_parse_json_tool_call` and `try_parse_all_json_tool_calls_from_buffer`
in the source: parse the span as a `ToolCall`, reject an empty tool name,
non-object args, or prose-leak keys. -/
def validateJsonCandidate (s : List Char) : Option ToolCall :=
  match serdeToolCallFromStr s with
  | some tc =>
      if tc.tool.isEmpty then none
      else
        match tc.args with
        | Json.obj fs => if args_contain_prose_fragments fs then none else some tc
        | _ => none
  | none => none

/-- Loop of `try_parse_all_json_tool_calls_from_buffer`: the search start
advances past each complete candidate object.  Fuel bounds the loop and the
caller supplies one unit per possible start position. -/
def scanAllJsonFrom : Nat → List Char → Nat → List ToolCall
  | 0, _, _ => []
  | fuel + 1, buf, searchStart =>
      if searchStart < buf.length then
        match find_first_tool_call_start (buf.drop searchStart) with
        | none => []
        | some rel =>
            let absStart := searchStart + rel
            match find_complete_json_object_end (buf.drop absStart) with
            | none => []
            | some endPos =>
                let found :=
                  match validateJsonCandidate ((buf.drop absStart).take (endPos + 1)) with
                  | some tc => [tc]
                  | none => []
                found ++ scanAllJsonFrom fuel buf (absStart + endPos + 1)
      else []

/-- `StreamingToolParser::try_parse_all_json_tool_calls_from_buffer`. -/
def try_parse_all_json_tool_calls_from_buffer (st : StreamingToolParser) : List ToolCall :=
  scanAllJsonFrom (st.text_buffer.length + 1) st.text_buffer 0

/-- `StreamingToolParser::try_parse_json_tool_call` (the mid-stream fallback;
its `content` parameter is unused by the source).  Returns the optional call
together with the updated parser state. -/
def try_parse_json_tool_call (st : StreamingToolParser) :
    Option ToolCall × StreamingToolParser :=
  let currentBuffer := st.text_buffer.drop st.last_consumed_position
  match try_parse_xml_tool_calls_from_text currentBuffer with
  | tc :: _ =>
      let pat := strL "<invoke name=\"" ++ tc.tool ++ strL "\""
      let st' :=
        match findSub currentBuffer pat with
        | some pos =>
            { st with
              last_consumed_position := st.text_buffer.length - currentBuffer.length + pos + 1 }
        | none => st
      (some tc, st')
  | [] =>
      let st1 :=
        if st.in_json_tool_call = false then
          match find_last_tool_call_start st.text_buffer with
          | some pos => { st with in_json_tool_call := true, json_tool_start := some pos }
          | none => st
        else st
      if st1.in_json_tool_call = true then
        match st1.json_tool_start with
        | some startPos =>
            let jsonText := st1.text_buffer.drop startPos
            match find_complete_json_object_end jsonText with
            | some endPos =>
                (validateJsonCandidate (jsonText.take (endPos + 1)),
                  { st1 with in_json_tool_call := false, json_tool_start := none })
            | none => (none, st1)
        | none => (none, st1)
      else (none, st1)

/-- Step 2 of `process_chunk`: convert the chunk's native tool calls,
skipping empty tool names. -/
def processNativeTools (chunk : CompletionChunk) : List ToolCall :=
  match chunk.tool_calls with
  | some tcs =>
      tcs.foldl
        (fun (acc : List ToolCall) (tc : ToolCall) =>
          if tc.tool.isEmpty then acc else acc ++ [{ tool := tc.tool, args := tc.args }])
        []
  | none => []

/-- Step 3 of `process_chunk`: on the terminating chunk, if nothing was
produced yet and the buffer is non-empty, scan the whole buffer — XML
first, else the bulk JSON scan. -/
def processFinish (st1 : StreamingToolParser) (chunk : CompletionChunk)
    (nativeTools : List ToolCall) : List ToolCall × StreamingToolParser :=
  if chunk.finished then
    let stf := { st1 with message_stopped := true }
    if nativeTools.isEmpty ∧ stf.text_buffer.isEmpty = false then
      let xmlTools := try_parse_xml_tool_calls_from_text stf.text_buffer
      if xmlTools.isEmpty = false then (nativeTools ++ xmlTools, stf)
      else
        let allJsonTools := try_parse_all_json_tool_calls_from_buffer stf
        if allJsonTools.isEmpty = false then (nativeTools ++ allJsonTools, stf)
        else (nativeTools, stf)
    else (nativeTools, stf)
  else (nativeTools, st1)

/-- Step 4 of `process_chunk`: on a non-terminating chunk with content that
produced nothing yet, try the XML scan on the chunk content, else the
mid-stream JSON fallback. -/
def processFallback (tools2 : List ToolCall) (st2 : StreamingToolParser)
    (chunk : CompletionChunk) : List ToolCall × StreamingToolParser :=
  if tools2.isEmpty ∧ chunk.content.isEmpty = false ∧ chunk.finished = false then
    let xmlTools := try_parse_xml_tool_calls_from_text chunk.content
    if xmlTools.isEmpty = false then (tools2 ++ xmlTools, st2)
    else
      match try_parse_json_tool_call st2 with
      | (some tc, st3) => (tools2 ++ [tc], st3)
      | (none, st3) => (tools2, st3)
  else (tools2, st2)

/-- `StreamingToolParser::process_chunk`, assembled from its stages in the
source's order: append the content, convert natives, end-of-stream scan,
mid-stream fallback. -/
def process_chunk (st0 : StreamingToolParser) (chunk : CompletionChunk) :
    List ToolCall × StreamingToolParser :=
  let st1 :=
    if chunk.content.isEmpty then st0
    else { st0 with text_buffer := st0.text_buffer ++ chunk.content }
  let afterFinish := processFinish st1 chunk (processNativeTools chunk)
  processFallback afterFinish.1 afterFinish.2 chunk

/-- Feed a list of chunks through `process_chunk` in order, concatenating the
returned tool-call lists. -/
def runChunks : StreamingToolParser → List CompletionChunk → List ToolCall × StreamingToolParser
  | st, [] => ([], st)
  | st, ch :: rest =>
      let out := process_chunk st ch
      let outs := runChunks out.2 rest
      (out.1 ++ outs.1, outs.2)

/-- `StreamingToolParser::has_incomplete_tool_call`. -/
def has_incomplete_tool_call (st : StreamingToolParser) : Bool :=
  let uncheckedBuffer := st.text_buffer.drop st.last_consumed_position
  match find_last_tool_call_start uncheckedBuffer with
  | some startPos => (find_complete_json_object_end (uncheckedBuffer.drop startPos)).isNone
  | none => false

/-- `StreamingToolParser::has_unexecuted_tool_call`. -/
def has_unexecuted_tool_call (st : StreamingToolParser) : Bool :=
  let uncheckedBuffer := st.text_buffer.drop st.last_consumed_position
  match find_last_tool_call_start uncheckedBuffer with
  | some startPos =>
      match find_complete_json_object_end (uncheckedBuffer.drop startPos) with
      | some jsonEnd =>
          (parseJsonStr ((uncheckedBuffer.drop startPos).take (jsonEnd + 1))).isSome
      | none => false
  | none => false

/-- `StreamingToolParser::mark_tool_calls_consumed`. -/
def mark_tool_calls_consumed (st : StreamingToolParser) : StreamingToolParser :=
  { st with last_consumed_position := st.text_buffer.length }

/-- `StreamingToolParser::reset`. -/
def resetParser (_ : StreamingToolParser) : StreamingToolParser :=
  StreamingToolParser.new

/-- `StreamingToolParser::get_content_before_position` at scalar level (total
on scalar indices). -/
def get_content_before_position (st : StreamingToolParser) (pos : Nat) : List Char :=
  if pos ≤ st.text_buffer.length then st.text_buffer.take pos else st.text_buffer

/-- Inner while loop of `try_parse_json_tool_calls_from_text` for one
pattern. -/
def scanJsonTextOnePattern : Nat → List Char → List Char → Nat → List ToolCall
  | 0, _, _, _ => []
  | fuel + 1, text, pat, start =>
      match findSub (text.drop start) pat with
      | none => []
      | some pos =>
          let actualPos := start + pos
          let found :=
            match find_complete_json_object_end (text.drop actualPos) with
            | some jsonEnd =>
                match serdeToolCallFromStr ((text.drop actualPos).take (jsonEnd + 1)) with
                | some tc => if tc.tool.isEmpty then [] else [tc]
                | none => []
            | none => []
          found ++ scanJsonTextOnePattern fuel text pat (actualPos + 1)

/-- `StreamingToolParser::try_parse_json_tool_calls_from_text` (the
standalone JSON scan entry point). -/
def try_parse_json_tool_calls_from_text (text : List Char) : List ToolCall :=
  toolCallPatterns.foldl (fun acc pat => acc ++ scanJsonTextOnePattern (text.length + 1) text pat 0) []

/-- Whether a byte offset is a character boundary of the UTF-8 encoding of a
scalar list (`str::is_char_boundary`). -/
def isCharBoundaryB : List Char → Nat → Bool
  | _, 0 => true
  | [], _ + 1 => false
  | c :: cs, p + 1 =>
      if c.utf8Size ≤ p + 1 then isCharBoundaryB cs (p + 1 - c.utf8Size) else false

/-- Scalar prefix whose UTF-8 encoding is the first `pos` bytes (defined on
boundary offsets). -/
def takePrefixBytes : List Char → Nat → List Char
  | _, 0 => []
  | [], _ + 1 => []
  | c :: cs, p + 1 =>
      if c.utf8Size ≤ p + 1 then c :: takePrefixBytes cs (p + 1 - c.utf8Size) else []

/-- Byte-accurate model of `get_content_before_position`: `pos` is a byte
index and `text_buffer[..pos]` is a Rust range slice, which panics
(`Except.error`) when `pos` lies inside the buffer but is not a character
boundary. -/
def get_content_before_position_bytes (st : StreamingToolParser) (pos : Nat) :
    Except Unit (List Char) :=
  if pos ≤ utf8Len st.text_buffer then
    if isCharBoundaryB st.text_buffer pos then Except.ok (takePrefixBytes st.text_buffer pos)
    else Except.error ()
  else Except.ok st.text_buffer

/-!
Specification-side definitions.  These restate, in the words of the spec and
of the claims, what the boundary finders and query helpers are claimed to
compute; the theorems below compare them with the source embeddings above.
-/

/-- Scan state of the JSON boundary description in the spec: brace depth,
in-string flag, one-shot escape flag, and whether an opening brace has been
seen. -/
structure JScan where
  depth : Int
  inStr : Bool
  esc : Bool
  seen : Bool

/-- One scalar step of the spec's JSON scan: depth moves on braces outside a
string, a quote toggles the string flag unless escaped, a backslash escapes
exactly the next scalar. -/
def jstep (st : JScan) (c : Char) : JScan :=
  if st.esc = true then { st with esc := false }
  else if c = '\\' then { st with esc := true }
  else if c = Char.ofNat 34 then { st with inStr := !st.inStr }
  else if c = lbrace ∧ st.inStr = false then { st with depth := st.depth + 1, seen := true }
  else if c = rbrace ∧ st.inStr = false then { st with depth := st.depth - 1 }
  else st

/-- Spec-side scan state reached just before position `j` of `text`,
starting from `st`. -/
def jscanAt (st : JScan) (text : List Char) (j : Nat) : JScan :=
  (text.take j).foldl jstep st

/-- The claim's condition at position `j`: a closing brace outside a quoted
string, not escaped, that brings the depth back to zero after an opening
brace was seen. -/
def jsonScanP (st : JScan) (text : List Char) (j : Nat) : Bool :=
  match text.get? j with
  | some c =>
      let s := jscanAt st text j
      (c = rbrace : Bool) && !s.esc && !s.inStr && (s.depth = 1 : Bool) && s.seen
  | none => false

/-- Spec-side JSON boundary: the first index whose scalar satisfies the
claim's closing condition, none when the text ends before that point. -/
def specJsonEnd (text : List Char) : Option Nat :=
  firstHit (jsonScanP { depth := 0, inStr := false, esc := false, seen := false } text) text.length

/-- Whether one of the patterns in `pats` starts at position `k` of `t`. -/
def anyPatAt (pats : List (List Char)) (t : List Char) (k : Nat) : Bool :=
  pats.any fun p => startsWithList p (t.drop k)

/-- Spec-side most recent JSON opening pattern: the greatest position of
`t` where one of the four JSON opening patterns starts. -/
def mostRecentJsonOpen (t : List Char) : Option Nat :=
  lastHit (anyPatAt toolCallPatterns t) t.length

/-- Amended reading of `has_incomplete_tool_call`: the most recent JSON
opening pattern in the unconsumed tail of the buffer is not followed by a
complete JSON object (XML openings are not considered). -/
def specHasIncompleteJson (st : StreamingToolParser) : Bool :=
  let tail := st.text_buffer.drop st.last_consumed_position
  match mostRecentJsonOpen tail with
  | some p => (specJsonEnd (tail.drop p)).isNone
  | none => false

/-- The claim's reading of `has_incomplete_tool_call` as stated: the most
recent opening pattern among the JSON and the XML opening patterns in the
unconsumed tail, with the balancing close of the matching kind. -/
def claimHasIncompleteAnyPattern (st : StreamingToolParser) : Bool :=
  let tail := st.text_buffer.drop st.last_consumed_position
  match lastHit (anyPatAt (toolCallPatterns ++ xmlToolCallPatterns) tail) tail.length with
  | some p =>
      if anyPatAt xmlToolCallPatterns tail p then
        (find_complete_xml_element_end (tail.drop p)).isNone
      else (specJsonEnd (tail.drop p)).isNone
  | none => false

/-- Spec-side XML tag name: the scalars after the opening angle bracket up
to whitespace or the closing angle bracket. -/
def xmlSpecTagName (rest : List Char) : List Char :=
  rest.takeWhile fun c => !rustIsWhitespace c && !(c = '>' : Bool)

/-- Spec-side literal closing tag of a tag name. -/
def xmlSpecClose (name : List Char) : List Char := '<' :: '/' :: (name ++ ['>'])

/-- The claims' prose-leak signature of one `args` key, in the claim's own
scalar terms: length over 100 scalars, an embedded newline, or a
conversational marker. -/
def proseKeyClaim (k : List Char) : Bool :=
  (100 < k.length : Bool) || containsSub k (strL "\n") ||
    proseMarkers.any fun marker => containsSub k marker

/-- Output contract of one tool call in the claims' terms: non-empty tool
identifier, object args, and no prose-leak key. -/
def validClaimB (tc : ToolCall) : Bool :=
  !tc.tool.isEmpty && jsonIsObj tc.args &&
    (jsonObjFields tc.args).all fun kv => !proseKeyClaim kv.1

/-- Output check the source applies on the JSON scanning paths: non-empty
tool name, object args, and no prose fragment by the source's byte-length
heuristic. -/
def validCodeB (tc : ToolCall) : Bool :=
  !tc.tool.isEmpty &&
    match tc.args with
    | Json.obj fs => !args_contain_prose_fragments fs
    | _ => false

/-- The complete single-object message of the spec's first testable
property. -/
def msgShell : List Char := strL "\x7b\"tool\":\"shell\",\"args\":\x7b\"command\":\"ls -la\"\x7d\x7d"

/-- The tool call that message denotes. -/
def tcShell : ToolCall :=
  { tool := strL "shell", args := Json.obj [(strL "command", Json.str (strL "ls -la"))] }

/-- A syntactically valid tool-call object whose `args` holds the prose key
of the claims' rejection example. -/
def proseMsg : List Char :=
  strL "\x7b\"tool\":\"shell\",\"args\":\x7b\"I\x27ll check the logs\":\"x\"\x7d\x7d"

/-- The XML span of the extraction example. -/
def xmlC7 : List Char :=
  strL "<invoke name=\"shell\"><parameter name=\"args\">ls -la\n/home/user</parameter></invoke>"

/-- The tool call the XML extraction example denotes. -/
def tcC7 : ToolCall :=
  { tool := strL "shell"
    args := Json.obj [(strL "command", Json.str (strL "ls -la /home/user"))] }

/-- A parser state whose buffer holds a truncated XML tool call and no JSON
opening pattern. -/
def stIncompleteXml : StreamingToolParser :=
  { text_buffer := strL "<invoke name=\"shell\"><parameter name=\"args\">ls"
    last_consumed_position := 0
    message_stopped := false
    in_json_tool_call := false
    json_tool_start := none }

/-- A parser state whose buffer holds one complete JSON tool call. -/
def stJsonBuffered : StreamingToolParser :=
  { text_buffer := msgShell
    last_consumed_position := 0
    message_stopped := false
    in_json_tool_call := false
    json_tool_start := none }

/-- A parser state whose buffer is one two-byte scalar. -/
def stTwoByteChar : StreamingToolParser :=
  { text_buffer := [Char.ofNat 233]
    last_consumed_position := 0
    message_stopped := false
    in_json_tool_call := false
    json_tool_start := none }

/-!
Characterizations of the scanning helpers: `findSub`/`rfindSub` compute the
least/greatest occurrence, `firstHit`/`lastHit` the least/greatest index of a
predicate below a bound.
-/

theorem startsWithList_nil_left (l : List Char) : startsWithList [] l = true := by
  cases l <;> rfl

theorem startsWithList_nil_right {pat : List Char} (h : pat ≠ []) :
    startsWithList pat [] = false := by
  cases pat with
  | nil => exact absurd rfl h
  | cons p ps => rfl

theorem startsWith_mem {pat l : List Char} (h : startsWithList pat l = true) :
    ∀ c ∈ pat, c ∈ l := by
  induction pat generalizing l with
  | nil => intro c hc; simp at hc
  | cons p ps ih =>
    cases l with
    | nil => simp [startsWithList] at h
    | cons a as =>
      rw [startsWithList] at h
      by_cases hpa : p = a
      · rw [if_pos hpa] at h
        intro c hc
        rcases List.mem_cons.mp hc with hc | hc
        · exact hc ▸ hpa ▸ List.mem_cons_self a as
        · exact List.mem_cons_of_mem a (ih h c hc)
      · rw [if_neg hpa] at h; exact absurd h (by simp)

theorem startsWith_of_take {pat : List Char} :
    ∀ {n : Nat} {l : List Char}, startsWithList pat (l.take n) = true →
      startsWithList pat l = true := by
  induction pat with
  | nil => intro n l _; exact startsWithList_nil_left l
  | cons p ps ih =>
    intro n l h
    cases n with
    | zero => simp [startsWithList] at h
    | succ n' =>
      cases l with
      | nil => simp [startsWithList] at h
      | cons a as =>
        rw [List.take_succ_cons, startsWithList] at h
        rw [startsWithList]
        by_cases hpa : p = a
        · rw [if_pos hpa] at h ⊢; exact ih h
        · rw [if_neg hpa] at h; exact absurd h (by simp)

theorem findSubFrom_shift (pat : List Char) :
    ∀ (t : List Char) (i : Nat), findSubFrom pat t i = (findSubFrom pat t 0).map (· + i) := by
  intro t
  induction t with
  | nil =>
    intro i
    by_cases h : startsWithList pat [] = true <;> simp [findSubFrom, h]
  | cons c ts ih =>
    intro i
    by_cases h : startsWithList pat (c :: ts) = true
    · simp [findSubFrom, h]
    · rw [findSubFrom, if_neg (by simpa using h), findSubFrom, if_neg (by simpa using h),
        ih (i + 1), ih 1]
      cases hts : findSubFrom pat ts 0 <;> simp [hts]; omega

theorem findSub_cons (c : Char) (ts pat : List Char) :
    findSub (c :: ts) pat =
      if startsWithList pat (c :: ts) = true then some 0 else (findSub ts pat).map (· + 1) := by
  by_cases h : startsWithList pat (c :: ts) = true
  · simp [findSub, findSubFrom, h]
  · rw [findSub, findSubFrom, if_neg (by simpa using h), if_neg h, findSubFrom_shift]
    rfl

theorem findSub_some {t pat : List Char} :
    ∀ {j : Nat}, findSub t pat = some j →
      startsWithList pat (t.drop j) = true ∧
        ∀ k, k < j → startsWithList pat (t.drop k) = false := by
  induction t with
  | nil =>
    intro j h
    rw [findSub, findSubFrom] at h
    by_cases hs : startsWithList pat [] = true
    · rw [if_pos hs] at h
      cases h
      exact ⟨hs, fun k hk => absurd hk (Nat.not_lt_zero k)⟩
    · rw [if_neg hs] at h; cases h
  | cons c ts ih =>
    intro j h
    rw [findSub_cons] at h
    by_cases hs : startsWithList pat (c :: ts) = true
    · rw [if_pos hs] at h
      cases h
      exact ⟨hs, fun k hk => absurd hk (Nat.not_lt_zero k)⟩
    · rw [if_neg hs] at h
      cases hts : findSub ts pat with
      | none => rw [hts] at h; cases h
      | some j' =>
        rw [hts] at h
        cases h
        rcases ih hts with ⟨h1, h2⟩
        refine ⟨h1, fun k hk => ?_⟩
        cases k with
        | zero => simpa using hs
        | succ k' => exact h2 k' (Nat.lt_of_succ_lt_succ hk)

theorem findSub_none {t pat : List Char} :
    findSub t pat = none → ∀ k, startsWithList pat (t.drop k) = false := by
  induction t with
  | nil =>
    intro h k
    rw [findSub, findSubFrom] at h
    by_cases hs : startsWithList pat [] = true
    · rw [if_pos hs] at h; cases h
    · simpa [List.drop_nil] using hs
  | cons c ts ih =>
    intro h k
    rw [findSub_cons] at h
    by_cases hs : startsWithList pat (c :: ts) = true
    · rw [if_pos hs] at h; cases h
    · rw [if_neg hs] at h
      cases k with
      | zero => simpa using hs
      | succ k' =>
        cases hts : findSub ts pat with
        | none => exact ih hts k'
        | some j' => rw [hts] at h; cases h

theorem findSub_isSome_of {t pat : List Char} {k : Nat}
    (h : startsWithList pat (t.drop k) = true) : (findSub t pat).isSome = true := by
  cases hf : findSub t pat with
  | none => exact absurd h (by simp [findSub_none hf k])
  | some j => rfl

theorem findSub_lt_length {t pat : List Char} {j : Nat} (hp : pat ≠ [])
    (h : findSub t pat = some j) : j < t.length := by
  have h1 := (findSub_some h).1
  by_contra hlt
  have hd : t.drop j = [] := List.drop_eq_nil_iff.mpr (Nat.le_of_not_lt hlt)
  rw [hd, startsWithList_nil_right hp] at h1
  cases h1

theorem firstHit_none {p : Nat → Bool} :
    ∀ {n : Nat}, firstHit p n = none → ∀ k, k < n → p k = false := by
  intro n
  induction n with
  | zero => intro _ k hk; exact absurd hk (Nat.not_lt_zero k)
  | succ n ih =>
    intro h k hk
    rw [firstHit] at h
    cases hfn : firstHit p n with
    | some i => rw [hfn] at h; cases h
    | none =>
      rw [hfn] at h
      by_cases hpn : p n = true
      · rw [if_pos hpn] at h; cases h
      · rcases Nat.lt_succ_iff_lt_or_eq.mp hk with hk' | hk'
        · exact ih hfn k hk'
        · subst hk'; simpa using hpn

theorem firstHit_some {p : Nat → Bool} :
    ∀ {n j : Nat}, firstHit p n = some j →
      j < n ∧ p j = true ∧ ∀ k, k < j → p k = false := by
  intro n
  induction n with
  | zero => intro j h; cases h
  | succ n ih =>
    intro j h
    rw [firstHit] at h
    cases hfn : firstHit p n with
    | some i =>
      rw [hfn] at h
      cases h
      rcases ih hfn with ⟨h1, h2, h3⟩
      exact ⟨Nat.lt_succ_of_lt h1, h2, h3⟩
    | none =>
      rw [hfn] at h
      by_cases hpn : p n = true
      · rw [if_pos hpn] at h
        cases h
        exact ⟨Nat.lt_succ_self n, hpn, firstHit_none hfn⟩
      · rw [if_neg hpn] at h; cases h

theorem firstHit_intro {p : Nat → Bool} :
    ∀ {n j : Nat}, j < n → p j = true → (∀ k, k < j → p k = false) →
      firstHit p n = some j := by
  intro n
  induction n with
  | zero => intro j hj; exact absurd hj (Nat.not_lt_zero j)
  | succ n ih =>
    intro j hj hp hmin
    rcases Nat.lt_succ_iff_lt_or_eq.mp hj with hj' | hj'
    · rw [firstHit, ih hj' hp hmin]
    · have hj2 : j = n := hj'
      subst hj2
      rw [firstHit]
      cases hfn : firstHit p j with
      | some i =>
        rcases firstHit_some hfn with ⟨h1, h2, _⟩
        exact absurd h2 (by simp [hmin i h1])
      | none => simp [hp]

theorem firstHit_shift (p : Nat → Bool) :
    ∀ n, firstHit p (n + 1) =
      if p 0 = true then some 0 else (firstHit (fun j => p (j + 1)) n).map (· + 1) := by
  intro n
  induction n with
  | zero =>
    rw [firstHit, firstHit]
    by_cases h0 : p 0 = true <;> simp [firstHit, h0]
  | succ n ih =>
    rw [firstHit, ih]
    by_cases h0 : p 0 = true
    · simp [h0]
    · rw [if_neg h0, if_neg h0, firstHit]
      cases hq : firstHit (fun j => p (j + 1)) n with
      | some i => simp
      | none => by_cases hpn : p (n + 1) = true <;> simp [hpn]

theorem lastHit_none {p : Nat → Bool} :
    ∀ {n : Nat}, lastHit p n = none → ∀ k, k < n → p k = false := by
  intro n
  induction n with
  | zero => intro _ k hk; exact absurd hk (Nat.not_lt_zero k)
  | succ n ih =>
    intro h k hk
    rw [lastHit] at h
    by_cases hpn : p n = true
    · rw [if_pos hpn] at h; cases h
    · rw [if_neg hpn] at h
      rcases Nat.lt_succ_iff_lt_or_eq.mp hk with hk' | hk'
      · exact ih h k hk'
      · subst hk'; simpa using hpn

theorem lastHit_some {p : Nat → Bool} :
    ∀ {n j : Nat}, lastHit p n = some j →
      j < n ∧ p j = true ∧ ∀ k, j < k → k < n → p k = false := by
  intro n
  induction n with
  | zero => intro j h; cases h
  | succ n ih =>
    intro j h
    rw [lastHit] at h
    by_cases hpn : p n = true
    · rw [if_pos hpn] at h
      cases h
      exact ⟨Nat.lt_succ_self n, hpn, fun k hk1 hk2 => absurd hk2 (by omega)⟩
    · rw [if_neg hpn] at h
      rcases ih h with ⟨h1, h2, h3⟩
      refine ⟨Nat.lt_succ_of_lt h1, h2, fun k hk1 hk2 => ?_⟩
      rcases Nat.lt_succ_iff_lt_or_eq.mp hk2 with hk' | hk'
      · exact h3 k hk1 hk'
      · subst hk'; simpa using hpn

theorem lastHit_intro {p : Nat → Bool} :
    ∀ {n j : Nat}, j < n → p j = true → (∀ k, j < k → k < n → p k = false) →
      lastHit p n = some j := by
  intro n
  induction n with
  | zero => intro j hj; exact absurd hj (Nat.not_lt_zero j)
  | succ n ih =>
    intro j hj hp hmax
    rw [lastHit]
    by_cases hpn : p n = true
    · rcases Nat.lt_succ_iff_lt_or_eq.mp hj with hj' | hj'
      · exact absurd hpn (by simp [hmax n hj' (Nat.lt_succ_self n)])
      · subst hj'; rw [if_pos hpn]
    · rw [if_neg hpn]
      rcases Nat.lt_succ_iff_lt_or_eq.mp hj with hj' | hj'
      · exact ih hj' hp (fun k hk1 hk2 => hmax k hk1 (Nat.lt_succ_of_lt hk2))
      · subst hj'; exact absurd hp hpn

theorem lastHit_shift (p : Nat → Bool) :
    ∀ n, lastHit p (n + 1) =
      match lastHit (fun j => p (j + 1)) n with
      | some j => some (j + 1)
      | none => if p 0 = true then some 0 else none := by
  intro n
  induction n with
  | zero => simp [lastHit]
  | succ n ih =>
    have hL : lastHit p (n + 1 + 1)
        = if p (n + 1) = true then some (n + 1) else lastHit p (n + 1) := rfl
    have hR : lastHit (fun j => p (j + 1)) (n + 1)
        = if p (n + 1) = true then some n else lastHit (fun j => p (j + 1)) n := rfl
    by_cases hpn : p (n + 1) = true
    · rw [hL, hR, if_pos hpn, if_pos hpn]
    · rw [hL, hR, if_neg hpn, if_neg hpn, ih]

theorem rfindSubFrom_shift (pat : List Char) :
    ∀ (t : List Char) (i : Nat), rfindSubFrom pat t i = (rfindSubFrom pat t 0).map (· + i) := by
  intro t
  induction t with
  | nil =>
    intro i
    by_cases h : startsWithList pat [] = true <;> simp [rfindSubFrom, h]
  | cons c ts ih =>
    intro i
    rw [rfindSubFrom, ih (i + 1)]
    conv_rhs => rw [rfindSubFrom, ih 1]
    cases hts : rfindSubFrom pat ts 0 with
    | some j => simp; omega
    | none =>
      by_cases h : startsWithList pat (c :: ts) = true <;> simp [h]

theorem rfindSub_cons (c : Char) (ts pat : List Char) :
    rfindSub (c :: ts) pat =
      match rfindSub ts pat with
      | some j => some (j + 1)
      | none => if startsWithList pat (c :: ts) = true then some 0 else none := by
  have h0 : rfindSub (c :: ts) pat
      = match rfindSubFrom pat ts 1 with
        | some j => some j
        | none => if startsWithList pat (c :: ts) = true then some 0 else none := rfl
  rw [h0, rfindSubFrom_shift pat ts 1,
    show rfindSubFrom pat ts 0 = rfindSub ts pat from rfl]
  cases hts : rfindSub ts pat with
  | some j => simp
  | none => simp

theorem rfindSub_eq_lastHit {pat : List Char} (hp : pat ≠ []) :
    ∀ t : List Char,
      rfindSub t pat = lastHit (fun j => startsWithList pat (t.drop j)) t.length := by
  intro t
  induction t with
  | nil =>
    rw [rfindSub, rfindSubFrom, if_neg (by simp [startsWithList_nil_right hp])]
    rfl
  | cons c ts ih =>
    rw [rfindSub_cons, ih]
    have hlen : (c :: ts).length = ts.length + 1 := rfl
    rw [hlen, lastHit_shift]
    have hfun : (fun j => startsWithList pat ((c :: ts).drop (j + 1)))
        = fun j => startsWithList pat (ts.drop j) := by
      funext j; rfl
    rw [hfun]
    cases hts : lastHit (fun j => startsWithList pat (ts.drop j)) ts.length with
    | some j => rfl
    | none => rfl

theorem betterLast_none_left (c : Option Nat) : betterLast none c = c := by
  cases c <;> rfl

theorem betterLast_lastHit (p q : Nat → Bool) :
    ∀ n, betterLast (lastHit p n) (lastHit q n) = lastHit (fun j => p j || q j) n := by
  intro n
  induction n with
  | zero => rfl
  | succ n ih =>
    have hL : lastHit p (n + 1) = if p n = true then some n else lastHit p n := rfl
    have hQ : lastHit q (n + 1) = if q n = true then some n else lastHit q n := rfl
    have hPQ : lastHit (fun j => p j || q j) (n + 1)
        = if (p n || q n) = true then some n else lastHit (fun j => p j || q j) n := rfl
    rw [hL, hQ, hPQ]
    by_cases hp : p n = true <;> by_cases hq : q n = true
    · rw [if_pos hp, if_pos hq, if_pos (show (p n || q n) = true by simp [hp])]
      simp [betterLast]
    · rw [if_pos hp, if_neg hq, if_pos (show (p n || q n) = true by simp [hp])]
      cases hqn : lastHit q n with
      | none => rfl
      | some b =>
        have hb := (lastHit_some hqn).1
        simp [betterLast, Nat.not_lt.mpr (Nat.le_of_lt hb)]
    · rw [if_neg hp, if_pos hq, if_pos (show (p n || q n) = true by simp [hq])]
      cases hpn : lastHit p n with
      | none => rfl
      | some b =>
        have hb := (lastHit_some hpn).1
        simp [betterLast, hb]
    · rw [if_neg hp, if_neg hq, if_neg (show ¬ (p n || q n) = true by simp [hp, hq])]
      exact ih

/-- All four JSON opening patterns are non-empty. -/
theorem toolCallPatterns_ne_nil : ∀ pat ∈ toolCallPatterns, pat ≠ [] := by decide

/-- `find_last_tool_call_start` computes the position of the most recent
JSON opening pattern: the greatest position of the text where one of the
four patterns starts. -/
theorem find_last_tool_call_start_eq (t : List Char) :
    find_last_tool_call_start t = lastHit (anyPatAt toolCallPatterns t) t.length := by
  have h1 : (strL "\x7b\"tool\":" : List Char) ≠ [] := by decide
  have h2 : (strL "\x7b \"tool\":" : List Char) ≠ [] := by decide
  have h3 : (strL "\x7b\"tool\" :" : List Char) ≠ [] := by decide
  have h4 : (strL "\x7b \"tool\" :" : List Char) ≠ [] := by decide
  rw [find_last_tool_call_start, toolCallPatterns]
  rw [List.foldl_cons, List.foldl_cons, List.foldl_cons, List.foldl_cons, List.foldl_nil]
  rw [betterLast_none_left]
  rw [rfindSub_eq_lastHit h1, rfindSub_eq_lastHit h2, rfindSub_eq_lastHit h3,
    rfindSub_eq_lastHit h4]
  rw [betterLast_lastHit, betterLast_lastHit, betterLast_lastHit]
  congr 1
  funext j
  simp [anyPatAt, toolCallPatterns, Bool.or_assoc]

/-!
Equivalence of `find_complete_json_object_end` with the spec's description:
the first closing brace outside a quoted string, unescaped, that brings the
running brace depth back to zero after an opening brace was seen.
-/

theorem jsonScanP_cons_zero (st : JScan) (c : Char) (rest : List Char) :
    jsonScanP st (c :: rest) 0
      = ((c = rbrace : Bool) && !st.esc && !st.inStr && (st.depth = 1 : Bool) && st.seen) := rfl

theorem jsonScanP_cons_shift (st : JScan) (c : Char) (rest : List Char) :
    (fun j => jsonScanP st (c :: rest) (j + 1)) = jsonScanP (jstep st c) rest := by
  funext j; rfl

theorem map_add_one_add (o : Option Nat) (i : Nat) :
    (o.map (· + 1)).map (· + i) = o.map (· + (i + 1)) := by
  cases o with
  | none => rfl
  | some j => simp [Nat.add_assoc, Nat.add_comm 1 i]

theorem fcjoeLoop_eq_firstHit :
    ∀ (text : List Char) (i : Nat) (d : Int) (s e f : Bool),
      fcjoeLoop text i d s e f =
        (firstHit (jsonScanP { depth := d, inStr := s, esc := e, seen := f } text)
          text.length).map (· + i) := by
  intro text
  induction text with
  | nil => intro i d s e f; rfl
  | cons c rest ih =>
    intro i d s e f
    have hlen : (c :: rest).length = rest.length + 1 := rfl
    rw [fcjoeLoop, hlen, firstHit_shift, jsonScanP_cons_shift, jsonScanP_cons_zero]
    by_cases he : e = true
    · rw [if_pos he, ih]
      have hst : jstep { depth := d, inStr := s, esc := e, seen := f } c
          = { depth := d, inStr := s, esc := false, seen := f } := by
        simp [jstep, he]
      rw [hst, if_neg (by simp [he]), map_add_one_add]
    · replace he : e = false := by simpa using he
      subst he
      rw [if_neg (by simp)]
      by_cases hbs : c = '\\'
      · rw [if_pos hbs, ih]
        have hst : jstep { depth := d, inStr := s, esc := false, seen := f } c
            = { depth := d, inStr := s, esc := true, seen := f } := by
          simp [jstep, hbs]
        have hc : (c = rbrace : Bool) = false := by
          subst hbs; decide
        rw [hst, if_neg (by simp [hc]), map_add_one_add]
      · rw [if_neg hbs]
        by_cases hq : c = Char.ofNat 34
        · rw [if_pos hq, ih]
          have hst : jstep { depth := d, inStr := s, esc := false, seen := f } c
              = { depth := d, inStr := !s, esc := false, seen := f } := by
            simp [jstep, hbs, hq]
          have hc : (c = rbrace : Bool) = false := by
            subst hq; decide
          rw [hst, if_neg (by simp [hc]), map_add_one_add]
        · rw [if_neg hq]
          by_cases hl : c = lbrace ∧ s = false
          · rw [if_pos hl, ih]
            have hst : jstep { depth := d, inStr := s, esc := false, seen := f } c
                = { depth := d + 1, inStr := s, esc := false, seen := true } := by
              simp [jstep, hl.1, hl.2, show ¬ lbrace = '\\' by decide,
                show ¬ lbrace = Char.ofNat 34 by decide]
            have hc : (c = rbrace : Bool) = false := by
              rcases hl with ⟨hc1, _⟩; subst hc1; decide
            rw [hst, if_neg (by simp [hc]), map_add_one_add]
          · rw [if_neg hl]
            by_cases hr : c = rbrace ∧ s = false
            · rw [if_pos hr]
              by_cases hz : d - 1 = 0 ∧ f = true
              · rw [if_pos hz]
                have hp0 : ((c = rbrace : Bool) && !false && !s && (d = 1 : Bool) && f)
                    = true := by
                  simp [hr.1, hr.2, hz.2]
                  omega
                rw [if_pos hp0]
                simp
              · rw [if_neg hz, ih]
                have hst : jstep { depth := d, inStr := s, esc := false, seen := f } c
                    = { depth := d - 1, inStr := s, esc := false, seen := f } := by
                  simp [jstep, hr.1, hr.2, show ¬ rbrace = '\\' by decide,
                    show ¬ rbrace = Char.ofNat 34 by decide,
                    show ¬ rbrace = lbrace by decide]
                have hp0 : ((c = rbrace : Bool) && !false && !s && (d = 1 : Bool) && f)
                    = false := by
                  rcases Decidable.not_and_iff_or_not.mp hz with hz1 | hz2
                  · have : (d = 1 : Bool) = false := by
                      simp; omega
                    simp [this]
                  · have : f = false := by simpa using hz2
                    simp [this]
                rw [hst, if_neg (by rw [hp0]; exact Bool.false_ne_true), map_add_one_add]
            · rw [if_neg hr, ih]
              have hst : jstep { depth := d, inStr := s, esc := false, seen := f } c
                  = { depth := d, inStr := s, esc := false, seen := f } := by
                simp [jstep, hbs, hq, hl, hr]
              have hp0 : ((c = rbrace : Bool) && !false && !s && (d = 1 : Bool) && f)
                  = false := by
                by_cases hcr : c = rbrace
                · have hs : s = true := by
                    rcases Decidable.not_and_iff_or_not.mp hr with h | h
                    · exact absurd hcr h
                    · simpa using h
                  simp [hs]
                · simp [hcr]
              rw [hst, if_neg (by rw [hp0]; exact Bool.false_ne_true), map_add_one_add]

/-- The source's JSON object boundary finder computes exactly the spec's
boundary: the first unescaped closing brace outside a string that returns
the depth to zero after an opening brace, none when the text ends first. -/
theorem fcjoe_eq_specJsonEnd (text : List Char) :
    find_complete_json_object_end text = specJsonEnd text := by
  rw [find_complete_json_object_end, fcjoeLoop_eq_firstHit, specJsonEnd]
  cases firstHit (jsonScanP { depth := 0, inStr := false, esc := false, seen := false } text)
      text.length with
  | none => rfl
  | some j => simp

/-- The incomplete-call query equals its amended spec reading: the most
recent JSON opening pattern of the unconsumed tail followed by no complete
JSON object (XML opening patterns are not inspected by the source). -/
theorem has_incomplete_eq_specJson (st : StreamingToolParser) :
    has_incomplete_tool_call st = specHasIncompleteJson st := by
  simp only [has_incomplete_tool_call, specHasIncompleteJson, mostRecentJsonOpen]
  rw [← find_last_tool_call_start_eq]
  cases h : find_last_tool_call_start (st.text_buffer.drop st.last_consumed_position) with
  | none => rfl
  | some p => simp only [fcjoe_eq_specJsonEnd]

theorem findSub_eq_firstHit {pat : List Char} (hp : pat ≠ []) :
    ∀ t : List Char,
      findSub t pat = firstHit (fun j => startsWithList pat (t.drop j)) t.length := by
  intro t
  induction t with
  | nil =>
    rw [findSub, findSubFrom, if_neg (by simp [startsWithList_nil_right hp])]
    rfl
  | cons c ts ih =>
    rw [findSub_cons, show (c :: ts).length = ts.length + 1 from rfl, firstHit_shift]
    have hfun : (fun j => startsWithList pat ((c :: ts).drop (j + 1)))
        = fun j => startsWithList pat (ts.drop j) := by funext j; rfl
    rw [hfun, ih]
    simp only [List.drop_zero]

theorem startsWith_single_iff (c : Char) (l : List Char) :
    startsWithList [c] l = true ↔ l[0]? = some c := by
  cases l with
  | nil => simp [startsWithList]
  | cons d ds =>
    rw [startsWithList]
    by_cases hcd : c = d
    · subst hcd
      simp [startsWithList_nil_left]
    · rw [if_neg hcd]
      simp only [List.getElem?_cons_zero, Option.some.injEq]
      constructor
      · intro h; exact absurd h (by simp)
      · intro h; exact absurd h.symm hcd

theorem takeWhile_take_eq {p : Char → Bool} :
    ∀ (l : List Char) (n : Nat) (c : Char), l[n]? = some c → p c = false →
      (l.take n).takeWhile p = l.takeWhile p := by
  intro l
  induction l with
  | nil => intro n c h; simp at h
  | cons a as ih =>
    intro n c h hpc
    cases n with
    | zero =>
      simp only [List.getElem?_cons_zero, Option.some.injEq] at h
      subst h
      simp [List.takeWhile_cons, hpc]
    | succ n' =>
      rw [List.take_succ_cons, List.takeWhile_cons, List.takeWhile_cons]
      by_cases hpa : p a = true
      · rw [if_pos hpa, if_pos hpa, ih n' c (by simpa using h) hpc]
      · rw [if_neg hpa, if_neg hpa]

theorem close_occurs_gt {rest name : List Char} {j : Nat}
    (h : startsWithList (xmlSpecClose name) (('<' :: rest).drop j) = true) : '>' ∈ rest := by
  have hmem : '>' ∈ ('<' :: rest).drop j :=
    startsWith_mem h '>' (by simp [xmlSpecClose])
  have hmem2 : '>' ∈ ('<' :: rest) := List.mem_of_mem_drop hmem
  rcases List.mem_cons.mp hmem2 with h1 | h1
  · exact absurd h1 (by decide)
  · exact h1

/-- The XML boundary finder on text beginning at an opening angle bracket
whose tag name does not start with a slash: its result is the offset just
past the first occurrence of the literal closing tag, none when the closing
tag never occurs. -/
theorem xml_element_end_spec (rest : List Char)
    (hname : startsWithList (strL "/") (xmlSpecTagName rest) = false) :
    find_complete_xml_element_end ('<' :: rest) =
      (firstHit
          (fun j => startsWithList (xmlSpecClose (xmlSpecTagName rest)) (('<' :: rest).drop j))
          ('<' :: rest).length).map
        (fun j => j + ((xmlSpecTagName rest).length + 3)) := by
  have h0 : findSub ('<' :: rest) (strL "<") = some 0 := by
    rw [findSub_cons, if_pos]
    rw [show (strL "<") = ['<'] from rfl, startsWithList, if_pos rfl]
    exact startsWithList_nil_left rest
  simp only [find_complete_xml_element_end, h0]
  rw [show (0 + 1 : Nat) = 1 from rfl, show ('<' :: rest).drop 1 = rest from rfl]
  cases hgt : findSub rest (strL ">") with
  | none =>
    cases hfh : firstHit
        (fun j => startsWithList (xmlSpecClose (xmlSpecTagName rest)) (('<' :: rest).drop j))
        ('<' :: rest).length with
    | none => rfl
    | some j =>
      exfalso
      have hP := (firstHit_some hfh).2.1
      have hmem : '>' ∈ rest := close_occurs_gt hP
      rcases List.append_of_mem hmem with ⟨s, t, hst⟩
      have hocc : startsWithList (strL ">") (rest.drop s.length) = true := by
        rw [hst, List.drop_left, show (strL ">") = ['>'] from rfl, startsWithList, if_pos rfl]
        exact startsWithList_nil_left t
      have := findSub_isSome_of hocc
      rw [hgt] at this
      cases this
  | some te =>
    have hte : rest[te]? = some '>' := by
      have h1 := (findSub_some hgt).1
      rw [show (strL ">") = ['>'] from rfl] at h1
      have h2 := (startsWith_single_iff '>' (rest.drop te)).mp h1
      rw [List.getElem?_drop] at h2
      simpa using h2
    have htw : (rest.take te).takeWhile (fun c => !rustIsWhitespace c && !(c = '>' : Bool))
        = xmlSpecTagName rest := by
      rw [xmlSpecTagName]
      exact takeWhile_take_eq rest te '>' hte (by decide)
    simp only [htw]
    rw [if_neg (by rw [hname]; exact Bool.false_ne_true)]
    have hclose : strL "</" ++ xmlSpecTagName rest ++ strL ">"
        = xmlSpecClose (xmlSpecTagName rest) := rfl
    rw [hclose, findSub_eq_firstHit (show xmlSpecClose (xmlSpecTagName rest) ≠ [] by
      simp [xmlSpecClose])]
    have hlen2 : (xmlSpecClose (xmlSpecTagName rest)).length
        = (xmlSpecTagName rest).length + 3 := by
      simp [xmlSpecClose]
    cases hfh : firstHit
        (fun j => startsWithList (xmlSpecClose (xmlSpecTagName rest)) (('<' :: rest).drop j))
        ('<' :: rest).length with
    | none => rfl
    | some cp => simp [hlen2]

/-- Every call the XML extractor yields carries a non-empty tool name. -/
theorem parse_xml_tool_call_tool {xml : List Char} {tc : ToolCall}
    (h : parse_xml_tool_call xml = some tc) : tc.tool.isEmpty = false := by
  simp only [parse_xml_tool_call] at h
  split at h
  · exact absurd h (by simp)
  · split at h
    · exact absurd h (by simp)
    · next hne =>
      cases h
      simpa using hne

/-- Every call of the XML scan loop comes from the XML extractor. -/
theorem scanXml_mem :
    ∀ (fuel : Nat) (text pat : List Char) (start : Nat) {tc : ToolCall},
      tc ∈ scanXmlOnePattern fuel text pat start →
        ∃ xml, parse_xml_tool_call xml = some tc := by
  intro fuel
  induction fuel with
  | zero => intro _ _ _ _ h; simp [scanXmlOnePattern] at h
  | succ fuel ih =>
    intro text pat start tc h
    rw [scanXmlOnePattern] at h
    cases hf : findSub (text.drop start) pat with
    | none => rw [hf] at h; simp at h
    | some pos =>
      rw [hf] at h
      dsimp only at h
      rcases List.mem_append.mp h with h1 | h1
      · split at h1
        · split at h1
          · next tc' hp2 =>
              simp at h1
              exact ⟨_, by rw [hp2, h1]⟩
          · simp at h1
        · simp at h1
      · exact ih text pat (start + pos + 1) h1

/-- An occurrence inside a contiguous slice is an occurrence in the whole
text. -/
theorem contains_take_drop {text pat : List Char} {a b : Nat}
    (h : containsSub ((text.drop a).take b) pat = true) : containsSub text pat = true := by
  obtain ⟨j, hj⟩ : ∃ j, findSub ((text.drop a).take b) pat = some j := by
    cases hf : findSub ((text.drop a).take b) pat with
    | none => rw [containsSub, hf] at h; cases h
    | some j => exact ⟨j, rfl⟩
  have h1 := (findSub_some hj).1
  rw [List.drop_take, List.drop_drop] at h1
  have h2 := startsWith_of_take h1
  exact findSub_isSome_of h2

/-- The XML extractor needs an attribute-introducing opening: on a span
holding neither named opening it yields nothing. -/
theorem parse_xml_none_of_no_name {xml : List Char}
    (h1 : containsSub xml (strL "<invoke name=") = false)
    (h2 : containsSub xml (strL "<tool name=") = false) :
    parse_xml_tool_call xml = none := by
  rw [parse_xml_tool_call,
    if_neg (by rw [h1]; exact Bool.false_ne_true),
    if_neg (by rw [h2]; exact Bool.false_ne_true)]

/-- The XML scan loop yields nothing on text holding neither named
opening. -/
theorem scanXml_nil_of_no_name :
    ∀ (fuel start : Nat) (text pat : List Char),
      containsSub text (strL "<invoke name=") = false →
      containsSub text (strL "<tool name=") = false →
      scanXmlOnePattern fuel text pat start = [] := by
  intro fuel
  induction fuel with
  | zero => intros; rfl
  | succ fuel ih =>
    intro start text pat h1 h2
    rw [scanXmlOnePattern]
    cases hf : findSub (text.drop start) pat with
    | none => rfl
    | some pos =>
      dsimp only
      have hmono : ∀ pat0 xmlEnd, containsSub text pat0 = false →
          containsSub ((text.drop (start + pos)).take xmlEnd) pat0 = false := by
        intro pat0 xmlEnd hp0
        cases hcc : containsSub ((text.drop (start + pos)).take xmlEnd) pat0 with
        | false => rfl
        | true => simp [contains_take_drop hcc] at hp0
      rw [ih (start + pos + 1) text pat h1 h2, List.append_nil]
      cases hx : find_complete_xml_element_end (text.drop (start + pos)) with
      | none => rfl
      | some xmlEnd =>
        dsimp only
        rw [parse_xml_none_of_no_name (hmono _ xmlEnd h1) (hmono _ xmlEnd h2)]

/-- The full XML scan yields nothing on text holding neither named
opening, in particular on text whose only opening matches are of the bare
`invoke` form. -/
theorem try_parse_xml_nil_of_no_name {text : List Char}
    (h1 : containsSub text (strL "<invoke name=") = false)
    (h2 : containsSub text (strL "<tool name=") = false) :
    try_parse_xml_tool_calls_from_text text = [] := by
  rw [try_parse_xml_tool_calls_from_text, xmlToolCallPatterns,
    List.foldl_cons, List.foldl_cons, List.foldl_cons, List.foldl_nil,
    scanXml_nil_of_no_name _ _ _ _ h1 h2,
    scanXml_nil_of_no_name _ _ _ _ h1 h2,
    scanXml_nil_of_no_name _ _ _ _ h1 h2]
  rfl

/-- Every call of the full XML scan carries a non-empty tool name. -/
theorem try_parse_xml_tool_nonempty {text : List Char} {tc : ToolCall}
    (h : tc ∈ try_parse_xml_tool_calls_from_text text) : tc.tool.isEmpty = false := by
  rw [try_parse_xml_tool_calls_from_text, xmlToolCallPatterns,
    List.foldl_cons, List.foldl_cons, List.foldl_cons, List.foldl_nil] at h
  rcases List.mem_append.mp h with h' | h3
  · rcases List.mem_append.mp h' with h'' | h2
    · rcases List.mem_append.mp h'' with h0 | h1
      · simp at h0
      · rcases scanXml_mem _ _ _ _ h1 with ⟨xml, hx⟩
        exact parse_xml_tool_call_tool hx
    · rcases scanXml_mem _ _ _ _ h2 with ⟨xml, hx⟩
      exact parse_xml_tool_call_tool hx
  · rcases scanXml_mem _ _ _ _ h3 with ⟨xml, hx⟩
    exact parse_xml_tool_call_tool hx

/-- A scalar is at least one UTF-8 byte, so scalar length bounds byte
length. -/
theorem length_le_utf8Len (s : List Char) : s.length ≤ utf8Len s := by
  induction s with
  | nil => simp [utf8Len]
  | cons c cs ih =>
    have hc : 0 < c.utf8Size := Char.utf8Size_pos c
    simp only [utf8Len, List.map_cons, List.sum_cons, List.length_cons]
    simp only [utf8Len] at ih
    omega

/-- A candidate accepted by the shared JSON validation passes the source's
checks. -/
theorem validateJsonCandidate_valid {s : List Char} {tc : ToolCall}
    (h : validateJsonCandidate s = some tc) : validCodeB tc = true := by
  rw [validateJsonCandidate] at h
  split at h
  · next tc' hser =>
    split at h
    · exact absurd h (by simp)
    · next hne =>
      split at h
      · next fs hobj =>
        split at h
        · exact absurd h (by simp)
        · next hnp =>
          cases h
          simp only [validCodeB, hobj]
          simp [Bool.not_eq_true] at hne hnp
          simp [hne, hnp]
      · exact absurd h (by simp)
  · exact absurd h (by simp)

/-- The source's JSON-path check implies the claims' scalar-level output
contract. -/
theorem validCode_imp_claim {tc : ToolCall} (h : validCodeB tc = true) :
    validClaimB tc = true := by
  rw [validCodeB, Bool.and_eq_true] at h
  obtain ⟨hne, hm⟩ := h
  cases harg : tc.args
  case obj fs =>
    rw [harg] at hm
    have hpf : args_contain_prose_fragments fs = false := by simpa using hm
    rw [validClaimB, harg]
    simp only [jsonIsObj, jsonObjFields, hne, Bool.true_and]
    rw [List.all_eq_true]
    intro kv hkv
    have hnp : ¬ (100 < utf8Len kv.1 ∨ containsSub kv.1 (strL "\n") = true ∨
        (proseMarkers.any fun marker => containsSub kv.1 marker) = true) := by
      intro hcon
      have hany : args_contain_prose_fragments fs = true := by
        rw [args_contain_prose_fragments, List.any_eq_true]
        exact ⟨kv, hkv, decide_eq_true hcon⟩
      rw [hany] at hpf
      cases hpf
    push_neg at hnp
    obtain ⟨hn1, hn2, hn3⟩ := hnp
    have hlen : ¬ (100 < kv.1.length) := by
      have := length_le_utf8Len kv.1
      omega
    simp [proseKeyClaim, hn2, hn3, hlen]
  all_goals (rw [harg] at hm; simp at hm)

/-- Every call the bulk end-of-stream JSON scan emits passes the source's
checks. -/
theorem scanAllJson_valid :
    ∀ (fuel : Nat) (buf : List Char) (ss : Nat),
      (scanAllJsonFrom fuel buf ss).all validCodeB = true := by
  intro fuel
  induction fuel with
  | zero => intros; rfl
  | succ fuel ih =>
    intro buf ss
    rw [scanAllJsonFrom]
    split
    · split
      · rfl
      · dsimp only
        split
        · rfl
        · rw [List.all_append, ih, Bool.and_true]
          split
          · next tc hval => simp [validateJsonCandidate_valid hval]
          · rfl
    · rfl

/-- A mid-stream fallback result obtained with no XML candidate in the
unconsumed tail passes the source's JSON checks. -/
theorem tpjtc_valid {st : StreamingToolParser} {tc : ToolCall}
    (hxml : try_parse_xml_tool_calls_from_text (st.text_buffer.drop st.last_consumed_position) = [])
    (h : (try_parse_json_tool_call st).1 = some tc) : validCodeB tc = true := by
  rw [try_parse_json_tool_call, hxml] at h
  dsimp only at h
  repeat' split at h
  all_goals
    first
      | exact validateJsonCandidate_valid h
      | simp at h

theorem validCodeB_tool {tc : ToolCall} (h : validCodeB tc = true) :
    tc.tool.isEmpty = false := by
  rw [validCodeB, Bool.and_eq_true] at h
  simpa using h.1

/-- Every mid-stream fallback result carries a non-empty tool name, on the
XML and on the JSON sub-path alike. -/
theorem tpjtc_tool_nonempty {st : StreamingToolParser} {tc : ToolCall}
    (h : (try_parse_json_tool_call st).1 = some tc) : tc.tool.isEmpty = false := by
  rw [try_parse_json_tool_call] at h
  cases hx : try_parse_xml_tool_calls_from_text (st.text_buffer.drop st.last_consumed_position) with
  | cons tc0 rest =>
    rw [hx] at h
    dsimp only at h
    have h2 : tc0 = tc := Option.some.inj h
    have hmem : tc0 ∈ try_parse_xml_tool_calls_from_text
        (st.text_buffer.drop st.last_consumed_position) := by
      rw [hx]; exact List.mem_cons_self tc0 rest
    exact h2 ▸ try_parse_xml_tool_nonempty hmem
  | nil =>
    rw [hx] at h
    dsimp only at h
    repeat' split at h
    all_goals
      first
        | exact validCodeB_tool (validateJsonCandidate_valid h)
        | simp at h

theorem all_imp {l : List ToolCall} {p q : ToolCall → Bool} (h : l.all p = true)
    (himp : ∀ x, p x = true → q x = true) : l.all q = true := by
  rw [List.all_eq_true] at h ⊢
  exact fun x hx => himp x (h x hx)

/-- The native-call conversion loop of `process_chunk` preserves the
non-empty-tool invariant of its accumulator. -/
theorem native_fold_all (tcs : List ToolCall) :
    ∀ acc : List ToolCall, acc.all (fun tc => !tc.tool.isEmpty) = true →
      (tcs.foldl
          (fun (acc : List ToolCall) (tc : ToolCall) =>
            if tc.tool.isEmpty then acc else acc ++ [{ tool := tc.tool, args := tc.args }])
          acc).all (fun tc => !tc.tool.isEmpty) = true := by
  induction tcs with
  | nil => intro acc h; simpa using h
  | cons t ts ih =>
    intro acc h
    rw [List.foldl_cons]
    by_cases ht : t.tool.isEmpty = true
    · rw [if_pos ht]
      exact ih acc h
    · rw [if_neg ht]
      refine ih _ ?_
      rw [List.all_append, h, Bool.true_and]
      simp [ht]

theorem try_parse_xml_all (text : List Char) :
    (try_parse_xml_tool_calls_from_text text).all (fun tc => !tc.tool.isEmpty) = true := by
  rw [List.all_eq_true]
  intro x hx
  simp [try_parse_xml_tool_nonempty hx]

theorem try_parse_all_json_all (st : StreamingToolParser) :
    (try_parse_all_json_tool_calls_from_buffer st).all (fun tc => !tc.tool.isEmpty) = true := by
  refine all_imp (scanAllJson_valid _ _ _) ?_
  intro x hx
  simp [validCodeB_tool hx]

theorem processNativeTools_all (chunk : CompletionChunk) :
    (processNativeTools chunk).all (fun tc => !tc.tool.isEmpty) = true := by
  rw [processNativeTools]
  cases chunk.tool_calls with
  | none => rfl
  | some tcs => exact native_fold_all tcs [] rfl

theorem processFinish_all (st1 : StreamingToolParser) (chunk : CompletionChunk)
    {nativeTools : List ToolCall}
    (hn : nativeTools.all (fun tc => !tc.tool.isEmpty) = true) :
    ((processFinish st1 chunk nativeTools).1).all (fun tc => !tc.tool.isEmpty) = true := by
  rw [processFinish]
  split
  · dsimp only
    repeat' split
    all_goals
      simp_all [List.all_append, try_parse_xml_all, try_parse_all_json_all]
  · simpa using hn

theorem processFallback_all (st2 : StreamingToolParser) (chunk : CompletionChunk)
    {tools2 : List ToolCall}
    (ht : tools2.all (fun tc => !tc.tool.isEmpty) = true) :
    ((processFallback tools2 st2 chunk).1).all (fun tc => !tc.tool.isEmpty) = true := by
  rw [processFallback]
  split
  · dsimp only
    split
    · simp_all [List.all_append, try_parse_xml_all]
    · split
      · next tc st3 heq =>
        have h1 : (try_parse_json_tool_call st2).1 = some tc := by rw [heq]
        rw [List.all_append, ht, Bool.true_and]
        simp [tpjtc_tool_nonempty h1]
      · exact ht
  · exact ht

/-- Every tool call `process_chunk` returns, on any path, carries a
non-empty tool name. -/
theorem process_chunk_tool_nonempty (st : StreamingToolParser) (chunk : CompletionChunk) :
    ((process_chunk st chunk).1).all (fun tc => !tc.tool.isEmpty) = true := by
  rw [process_chunk]
  exact processFallback_all _ _ (processFinish_all _ _ (processNativeTools_all chunk))

theorem tpjtc_state (st : StreamingToolParser)
    (h : st.last_consumed_position ≤ st.text_buffer.length) :
    (try_parse_json_tool_call st).2.text_buffer = st.text_buffer ∧
    st.last_consumed_position ≤ (try_parse_json_tool_call st).2.last_consumed_position ∧
    (try_parse_json_tool_call st).2.last_consumed_position ≤ st.text_buffer.length := by
  rw [try_parse_json_tool_call]
  cases hx : try_parse_xml_tool_calls_from_text
      (st.text_buffer.drop st.last_consumed_position) with
  | nil =>
    dsimp only
    repeat' split
    all_goals exact ⟨rfl, Nat.le_refl _, h⟩
  | cons tc0 rest =>
    dsimp only
    split
    · next pos hpos =>
      have hcb : (st.text_buffer.drop st.last_consumed_position).length
          = st.text_buffer.length - st.last_consumed_position := List.length_drop _ _
      have hlt : pos < (st.text_buffer.drop st.last_consumed_position).length := by
        refine findSub_lt_length ?_ hpos
        intro habs
        rcases List.append_eq_nil.mp habs with ⟨_, h2⟩
        exact absurd h2 (by decide)
      refine ⟨rfl, ?_, ?_⟩
      · dsimp only
        omega
      · dsimp only
        omega
    · exact ⟨rfl, Nat.le_refl _, h⟩

theorem processFinish_state (st1 : StreamingToolParser) (chunk : CompletionChunk)
    (nativeTools : List ToolCall) :
    (processFinish st1 chunk nativeTools).2.text_buffer = st1.text_buffer ∧
    (processFinish st1 chunk nativeTools).2.last_consumed_position
      = st1.last_consumed_position ∧
    (processFinish st1 chunk nativeTools).2.in_json_tool_call = st1.in_json_tool_call := by
  rw [processFinish]
  split
  · dsimp only
    repeat' split
    all_goals exact ⟨rfl, rfl, rfl⟩
  · exact ⟨rfl, rfl, rfl⟩

theorem processFallback_state (st2 : StreamingToolParser) (chunk : CompletionChunk)
    (tools2 : List ToolCall)
    (h : st2.last_consumed_position ≤ st2.text_buffer.length) :
    st2.last_consumed_position ≤ (processFallback tools2 st2 chunk).2.last_consumed_position ∧
    (processFallback tools2 st2 chunk).2.last_consumed_position
      ≤ (processFallback tools2 st2 chunk).2.text_buffer.length := by
  rw [processFallback]
  split
  · dsimp only
    split
    · exact ⟨Nat.le_refl _, h⟩
    · split
      · next tc st3 heq =>
        have hs := tpjtc_state st2 h
        rw [heq] at hs
        obtain ⟨hb, h1, h2⟩ := hs
        exact ⟨h1, by rw [hb]; exact h2⟩
      · next st3 heq =>
        have hs := tpjtc_state st2 h
        rw [heq] at hs
        obtain ⟨hb, h1, h2⟩ := hs
        exact ⟨h1, by rw [hb]; exact h2⟩
  · exact ⟨Nat.le_refl _, h⟩

theorem process_chunk_cursor (st : StreamingToolParser) (chunk : CompletionChunk)
    (h : st.last_consumed_position ≤ st.text_buffer.length) :
    st.last_consumed_position ≤ (process_chunk st chunk).2.last_consumed_position ∧
    (process_chunk st chunk).2.last_consumed_position
      ≤ (process_chunk st chunk).2.text_buffer.length := by
  rw [process_chunk]
  set s1 := (if chunk.content.isEmpty = true then st
    else { st with text_buffer := st.text_buffer ++ chunk.content }) with hs1
  have hlcp1 : s1.last_consumed_position = st.last_consumed_position := by
    rw [hs1]; split <;> rfl
  have hlen1 : s1.last_consumed_position ≤ s1.text_buffer.length := by
    rw [hs1]; split
    · exact h
    · simp only [List.length_append]
      omega
  obtain ⟨hfb, hflcp, _⟩ := processFinish_state s1 chunk (processNativeTools chunk)
  have hlen2 : (processFinish s1 chunk (processNativeTools chunk)).2.last_consumed_position
      ≤ (processFinish s1 chunk (processNativeTools chunk)).2.text_buffer.length := by
    rw [hfb, hflcp]; exact hlen1
  obtain ⟨ha, hb⟩ := processFallback_state
    (processFinish s1 chunk (processNativeTools chunk)).2 chunk
    (processFinish s1 chunk (processNativeTools chunk)).1 hlen2
  refine ⟨?_, hb⟩
  calc st.last_consumed_position = s1.last_consumed_position := hlcp1.symm
    _ = (processFinish s1 chunk (processNativeTools chunk)).2.last_consumed_position :=
        hflcp.symm
    _ ≤ _ := ha

theorem findSub_none_of_not_contains {t p : List Char} (h : containsSub t p = false) :
    findSub t p = none := by
  cases hf : findSub t p with
  | none => rfl
  | some j => rw [containsSub, hf] at h; simp at h

theorem lastHit_eq_none {p : Nat → Bool} :
    ∀ {n : Nat}, (∀ k, k < n → p k = false) → lastHit p n = none := by
  intro n
  induction n with
  | zero => intro _; rfl
  | succ n ih =>
    intro h
    rw [lastHit, if_neg (by simp [h n (Nat.lt_succ_self n)])]
    exact ih fun k hk => h k (Nat.lt_succ_of_lt hk)

theorem rfindSub_none_of_not_contains {t p : List Char} (hp : p ≠ [])
    (h : containsSub t p = false) : rfindSub t p = none := by
  rw [rfindSub_eq_lastHit hp]
  exact lastHit_eq_none fun k _ => findSub_none (findSub_none_of_not_contains h) k

theorem find_first_tool_call_start_none {t : List Char}
    (h : ∀ p ∈ toolCallPatterns, containsSub t p = false) :
    find_first_tool_call_start t = none := by
  rw [find_first_tool_call_start, toolCallPatterns,
    List.foldl_cons, List.foldl_cons, List.foldl_cons, List.foldl_cons, List.foldl_nil,
    findSub_none_of_not_contains (h _ (by simp [toolCallPatterns])),
    findSub_none_of_not_contains (h _ (by simp [toolCallPatterns])),
    findSub_none_of_not_contains (h _ (by simp [toolCallPatterns])),
    findSub_none_of_not_contains (h _ (by simp [toolCallPatterns]))]
  rfl

theorem find_last_tool_call_start_none {t : List Char}
    (h : ∀ p ∈ toolCallPatterns, containsSub t p = false) :
    find_last_tool_call_start t = none := by
  rw [find_last_tool_call_start, toolCallPatterns,
    List.foldl_cons, List.foldl_cons, List.foldl_cons, List.foldl_cons, List.foldl_nil,
    rfindSub_none_of_not_contains (by decide) (h _ (by simp [toolCallPatterns])),
    rfindSub_none_of_not_contains (by decide) (h _ (by simp [toolCallPatterns])),
    rfindSub_none_of_not_contains (by decide) (h _ (by simp [toolCallPatterns])),
    rfindSub_none_of_not_contains (by decide) (h _ (by simp [toolCallPatterns]))]
  rfl

/-- The mid-stream fallback is inert when the unconsumed tail has no XML
candidate, no JSON candidate is open, and no JSON opening pattern occurs in
the buffer. -/
theorem tpjtc_none_of_idle (st : StreamingToolParser)
    (hxml : try_parse_xml_tool_calls_from_text
      (st.text_buffer.drop st.last_consumed_position) = [])
    (hij : st.in_json_tool_call = false)
    (hfl : find_last_tool_call_start st.text_buffer = none) :
    try_parse_json_tool_call st = (none, st) := by
  rw [try_parse_json_tool_call, hxml]
  dsimp only
  rw [if_pos hij, hfl]
  dsimp only
  rw [if_neg (by simp [hij])]

theorem try_parse_all_nil (st : StreamingToolParser)
    (hff : find_first_tool_call_start st.text_buffer = none) :
    try_parse_all_json_tool_calls_from_buffer st = [] := by
  rw [try_parse_all_json_tool_calls_from_buffer, scanAllJsonFrom]
  split
  · rw [List.drop_zero, hff]
  · rfl

theorem processFinish_nil_nojson (st1 : StreamingToolParser) (chunk : CompletionChunk)
    (hx : try_parse_xml_tool_calls_from_text st1.text_buffer = [])
    (hff : find_first_tool_call_start st1.text_buffer = none) :
    (processFinish st1 chunk []).1 = [] := by
  rw [processFinish]
  split
  · dsimp only
    split
    · split
      · next hxe =>
        rw [hx] at hxe
        simp at hxe
      · split
        · next hje =>
          rw [try_parse_all_nil { st1 with message_stopped := true }
            (show find_first_tool_call_start
                ({ st1 with message_stopped := true } : StreamingToolParser).text_buffer = none
              from hff)] at hje
          simp at hje
        · rfl
    · rfl
  · rfl

theorem processFallback_nil_case (st2 : StreamingToolParser) (chunk : CompletionChunk)
    (hx : try_parse_xml_tool_calls_from_text chunk.content = [])
    (hmid : (try_parse_json_tool_call st2).1 = none) :
    (processFallback [] st2 chunk).1 = [] := by
  rw [processFallback]
  split
  · dsimp only
    split
    · next hxe =>
      rw [hx] at hxe
      simp at hxe
    · split
      · next tc st3 heq =>
        rw [heq] at hmid
        simp at hmid
      · rfl
  · rfl

theorem process_chunk_new_nil (text : List Char) (b : Bool)
    (h1 : containsSub text (strL "<invoke name=") = false)
    (h2 : containsSub text (strL "<tool name=") = false)
    (hj : ∀ p ∈ toolCallPatterns, containsSub text p = false) :
    (process_chunk StreamingToolParser.new
      { content := text, tool_calls := none, finished := b }).1 = [] := by
  have hff : find_first_tool_call_start text = none := find_first_tool_call_start_none hj
  have hfl : find_last_tool_call_start text = none := find_last_tool_call_start_none hj
  have hx : try_parse_xml_tool_calls_from_text text = [] := try_parse_xml_nil_of_no_name h1 h2
  rw [process_chunk]
  dsimp only
  set s1 := (if text.isEmpty = true then StreamingToolParser.new
    else { StreamingToolParser.new with
      text_buffer := StreamingToolParser.new.text_buffer ++ text }) with hs1
  have hbuf : s1.text_buffer = text := by
    rw [hs1]
    split
    · next hc =>
      rw [List.isEmpty_iff.mp hc]
      rfl
    · exact List.nil_append text
  have hij : s1.in_json_tool_call = false := by
    rw [hs1]; split <;> rfl
  have hlcp : s1.last_consumed_position = 0 := by
    rw [hs1]; split <;> rfl
  have hnat : processNativeTools
      { content := text, tool_calls := none, finished := b } = [] := rfl
  rw [hnat]
  have hfin1 : (processFinish s1 { content := text, tool_calls := none, finished := b } []).1
      = [] :=
    processFinish_nil_nojson s1 _ (by rw [hbuf]; exact hx) (by rw [hbuf]; exact hff)
  rw [hfin1]
  obtain ⟨hfb, hflcp, hfij⟩ :=
    processFinish_state s1 { content := text, tool_calls := none, finished := b } []
  refine processFallback_nil_case _ _ (by exact hx) ?_
  have hmid := tpjtc_none_of_idle
    (processFinish s1 { content := text, tool_calls := none, finished := b } []).2
    (by rw [hfb, hbuf, hflcp, hlcp, List.drop_zero]; exact hx)
    (by rw [hfij, hij])
    (by rw [hfb, hbuf]; exact hfl)
  rw [hmid]

/-!
Claim theorems.
-/

set_option maxRecDepth 10000

/-- C1: the spec says that splitting the complete single-object message
across four chunk boundaries with only the final chunk marked finished
yields exactly one call, never duplicated, for every split.  The code
violates this: for the split that places the whole message in the first
chunk and leaves the final chunk empty, the mid-stream fallback emits the
call at chunk one and the end-of-stream buffer scan emits the same call
again, so the concatenated output holds the call twice. -/
theorem c1_split_duplicates_tool_call :
    (runChunks StreamingToolParser.new
      [{ content := msgShell, tool_calls := none, finished := false },
       { content := [], tool_calls := none, finished := false },
       { content := [], tool_calls := none, finished := false },
       { content := [], tool_calls := none, finished := true }]).1 = [tcShell, tcShell] := rfl

/-- C2, counterexample: a native tool call whose args is a JSON string, not
an object, is returned by `process_chunk` unchanged, so the claimed
guarantee that every returned call carries object args fails on the native
path. -/
theorem c2_native_nonobject_args_leak :
    ((process_chunk StreamingToolParser.new
        { content := [],
          tool_calls := some [{ tool := strL "x", args := Json.str (strL "s") }],
          finished := false }).1).all (fun tc => jsonIsObj tc.args) = false := rfl

/-- C2, amended: every call `process_chunk` returns carries a non-empty tool
name on every path; the object-args and prose-free guarantee holds for the
calls produced by the JSON scanning paths (the bulk end-of-stream scan and
the JSON sub-path of the mid-stream fallback), while native tool calls and
XML-extracted calls pass their args value through unchecked. -/
theorem c2_amended_output_contract :
    (∀ (st : StreamingToolParser) (chunk : CompletionChunk),
        ((process_chunk st chunk).1).all (fun tc => !tc.tool.isEmpty) = true)
    ∧ (∀ st : StreamingToolParser,
        (try_parse_all_json_tool_calls_from_buffer st).all validClaimB = true)
    ∧ (∀ (st : StreamingToolParser) (tc : ToolCall),
        try_parse_xml_tool_calls_from_text
          (st.text_buffer.drop st.last_consumed_position) = [] →
        (try_parse_json_tool_call st).1 = some tc → validClaimB tc = true) :=
  ⟨process_chunk_tool_nonempty,
   fun _ => all_imp (scanAllJson_valid _ _ _) fun _ hx => validCode_imp_claim hx,
   fun _ _ hx h => validCode_imp_claim (tpjtc_valid hx h)⟩

/-- C2, witness: the JSON sub-path of the mid-stream fallback applied to a
buffered complete message produces a call meeting the amended contract. -/
theorem c2_amended_witness : validClaimB tcShell = true :=
  c2_amended_output_contract.2.2 stJsonBuffered tcShell rfl rfl

/-- C3: the JSON object boundary finder returns exactly the spec's
boundary — the first closing brace outside a quoted string, unescaped,
bringing the running depth (as traced by `jstep`) back to zero after an
opening brace was seen, and none when the text ends first. -/
theorem c3_json_boundary_matches_spec (text : List Char) :
    find_complete_json_object_end text = specJsonEnd text :=
  fcjoe_eq_specJsonEnd text

/-- C4: a JSON candidate span is rejected by the bulk scan and the
mid-stream fallback alike whenever its tool is empty, its args is not an
object, or an args key shows the prose-leak signature, stated via the
contract `validClaimB` that every emitted call satisfies; in particular the
object whose args key is the prose sentence yields zero calls, mid-stream
and at end of stream. -/
theorem c4_prose_leak_rejected :
    (∀ st : StreamingToolParser,
        (try_parse_all_json_tool_calls_from_buffer st).all validClaimB = true)
    ∧ (∀ (st : StreamingToolParser) (tc : ToolCall),
        try_parse_xml_tool_calls_from_text
          (st.text_buffer.drop st.last_consumed_position) = [] →
        (try_parse_json_tool_call st).1 = some tc → validClaimB tc = true)
    ∧ (process_chunk StreamingToolParser.new
        { content := proseMsg, tool_calls := none, finished := true }).1 = []
    ∧ (process_chunk StreamingToolParser.new
        { content := proseMsg, tool_calls := none, finished := false }).1 = [] :=
  ⟨fun _ => all_imp (scanAllJson_valid _ _ _) fun _ hx => validCode_imp_claim hx,
   fun _ _ hx h => validCode_imp_claim (tpjtc_valid hx h),
   rfl, rfl⟩

/-- C5, counterexample: a buffer holding only a truncated XML tool call is
incomplete under the claim's reading (most recent opening among the JSON
and XML patterns without a balancing close) yet `has_incomplete_tool_call`
returns false, because the source inspects only the JSON opening
patterns. -/
theorem c5_xml_opening_not_flagged :
    claimHasIncompleteAnyPattern stIncompleteXml = true ∧
      has_incomplete_tool_call stIncompleteXml = false := ⟨rfl, rfl⟩

/-- C5, amended: `has_incomplete_tool_call` is true exactly when the most
recent JSON opening pattern in the unconsumed tail has no complete JSON
object after it; XML opening patterns are not considered, and the helper is
a total boolean query. -/
theorem c5_amended_incomplete_query (st : StreamingToolParser) :
    has_incomplete_tool_call st = specHasIncompleteJson st :=
  has_incomplete_eq_specJson st

/-- C6: on a string beginning at an opening angle bracket whose tag name
does not begin with a slash, the XML boundary finder returns the offset
immediately past the first occurrence of the literal closing tag, and none
when that closing tag never occurs; a same-name element nested before the
first closing tag therefore truncates the span there. -/
theorem c6_xml_boundary_first_close (rest : List Char)
    (hname : startsWithList (strL "/") (xmlSpecTagName rest) = false) :
    find_complete_xml_element_end ('<' :: rest) =
      (firstHit
          (fun j => startsWithList (xmlSpecClose (xmlSpecTagName rest)) (('<' :: rest).drop j))
          ('<' :: rest).length).map
        (fun j => j + ((xmlSpecTagName rest).length + 3)) :=
  xml_element_end_spec rest hname

/-- C6, witness: on nested same-name elements the span is truncated at the
first closing tag. -/
theorem c6_xml_boundary_witness :
    find_complete_xml_element_end ('<' :: strL "a><a></a></a>") = some 10 :=
  (c6_xml_boundary_first_close (strL "a><a></a></a>") (by decide)).trans (by decide)

/-- C7: XML extraction of the example span yields exactly the shell call
with the parameter content trimmed, its internal newline collapsed to one
space, and (not being valid JSON) wrapped as a one-field command object. -/
theorem c7_xml_args_extraction :
    try_parse_xml_tool_calls_from_text xmlC7 = [tcC7] ∧
      parse_xml_tool_call xmlC7 = some tcC7 := ⟨rfl, rfl⟩

/-- C8: the claim says no public operation can fail on any input, but
`get_content_before_position` indexes the buffer by a byte range, and a
Rust range slice panics when the index falls inside a multi-byte scalar:
on a buffer holding one two-byte scalar, position one passes the length
guard yet is not a character boundary, modelled as `Except.error`. -/
theorem c8_byte_slice_panics :
    get_content_before_position_bytes stTwoByteChar 1 = Except.error () := rfl

/-- C9: every public mutator preserves the cursor invariant.  Given
`last_consumed_position ≤ |text_buffer|`, `process_chunk` (which reaches
the fallback consumption update inside `try_parse_json_tool_call`),
`mark_tool_calls_consumed`, and the fallback itself keep the cursor within
the buffer and never decrease it, while `reset` is the one operation
returning it to zero. -/
theorem c9_cursor_invariant (st : StreamingToolParser) (chunk : CompletionChunk)
    (h : st.last_consumed_position ≤ st.text_buffer.length) :
    (st.last_consumed_position ≤ (process_chunk st chunk).2.last_consumed_position ∧
      (process_chunk st chunk).2.last_consumed_position
        ≤ (process_chunk st chunk).2.text_buffer.length)
    ∧ (st.last_consumed_position ≤ (mark_tool_calls_consumed st).last_consumed_position ∧
      (mark_tool_calls_consumed st).last_consumed_position
        ≤ (mark_tool_calls_consumed st).text_buffer.length)
    ∧ (resetParser st).last_consumed_position = 0
    ∧ (st.last_consumed_position ≤ (try_parse_json_tool_call st).2.last_consumed_position ∧
      (try_parse_json_tool_call st).2.last_consumed_position
        ≤ (try_parse_json_tool_call st).2.text_buffer.length) := by
  refine ⟨process_chunk_cursor st chunk h, ⟨h, Nat.le_refl _⟩, rfl, ?_⟩
  obtain ⟨hb, h1, h2⟩ := tpjtc_state st h
  exact ⟨h1, by rw [hb]; exact h2⟩

/-- C9, witness: the invariant instantiated on a fresh parser consuming the
complete message as its terminating chunk. -/
theorem c9_cursor_witness :
    (process_chunk StreamingToolParser.new
        { content := msgShell, tool_calls := none, finished := true }).2.last_consumed_position
      ≤ (process_chunk StreamingToolParser.new
        { content := msgShell, tool_calls := none, finished := true }).2.text_buffer.length :=
  (c9_cursor_invariant StreamingToolParser.new
    { content := msgShell, tool_calls := none, finished := true } (Nat.le_refl 0)).1.2

/-- C10: on text containing neither `<invoke name=` nor `<tool name=` nor
any JSON opening pattern — so its only possible opening matches are the
bare `<invoke>` pattern — the XML scan extracts nothing (the extractor
demands a name attribute) and `process_chunk` on a fresh parser returns no
calls, finished or not. -/
theorem c10_bare_invoke_yields_nothing (text : List Char) (b : Bool)
    (h1 : containsSub text (strL "<invoke name=") = false)
    (h2 : containsSub text (strL "<tool name=") = false)
    (hj : ∀ p ∈ toolCallPatterns, containsSub text p = false) :
    try_parse_xml_tool_calls_from_text text = [] ∧
      (process_chunk StreamingToolParser.new
        { content := text, tool_calls := none, finished := b }).1 = [] :=
  ⟨try_parse_xml_nil_of_no_name h1 h2, process_chunk_new_nil text b h1 h2 hj⟩

/-- C10, witness: a finished chunk whose text holds a bare `invoke` element
and no other opening pattern yields zero calls. -/
theorem c10_bare_invoke_witness :
    try_parse_xml_tool_calls_from_text (strL "see <invoke>ls</invoke> done") = [] ∧
      (process_chunk StreamingToolParser.new
        { content := strL "see <invoke>ls</invoke> done", tool_calls := none,
          finished := true }).1 = [] :=
  c10_bare_invoke_yields_nothing (strL "see <invoke>ls</invoke> done") true
    (by decide) (by decide) (by decide)
